import Mathlib

/-!
# Verification of the Indexer ingestion pipeline

A shallow embedding, in Lean 4, of the core components of the Indexer
repository (an ingestion-side indexing pipeline written in Go): the bounded
FIFO queue, the circuit breaker, the dedup signature function, the spam
scorer, URL normalization, the bulk indexer's document-id generation and
retry loop, the NLP batch processor's delivery discipline, and the
processing pipeline (clean/dedup/language/spam/enrich/quality score).

Modelling conventions:
* Go strings are modelled as `List Nat` of Unicode code points (a Go
  `[]rune` view).  Where the Go code measures byte lengths (`len(s)`), the
  model uses the UTF-8 byte count `utf8Len`.
* Machine integers are modelled as `Int` (Go `int`) or `Nat` where the Go
  value is provably non-negative; arithmetic that cannot overflow in any
  reachable configuration is left unbounded.
* Stateful methods become pure functions from state (plus the responses of
  external collaborators: clock, NLP service, Redis, HTTP) to state.
* Fallible Go functions returning `(T, error)` become `Except`/`Option`
  values or sum types with one constructor per distinct error value.
-/

namespace Indexer

/-! ## Go string primitives (over `List Nat` of code points) -/

/-- Go `unicode.IsSpace` restricted to the Latin-1 space characters it
recognizes: `'\t' '\n' '\v' '\f' '\r' ' '` (9-13, 32), NEL (0x85) and NBSP
(0xA0). -/
def isSpaceCh (c : Nat) : Bool :=
  (9 ≤ c && c ≤ 13) || c == 32 || c == 133 || c == 160

/-- ASCII lowercasing of one code point (`strings.ToLower` on the
characters this repository manipulates). -/
def toLowerCh (c : Nat) : Nat :=
  if 65 ≤ c && c ≤ 90 then c + 32 else c

/-- `strings.ToLower`. -/
def toLowerStr (s : List Nat) : List Nat :=
  s.map toLowerCh

/-- Leading-whitespace removal. -/
def trimLeft (s : List Nat) : List Nat :=
  s.dropWhile (fun c => isSpaceCh c)

/-- `strings.TrimSpace`: drop leading and trailing whitespace. -/
def trimSpace (s : List Nat) : List Nat :=
  ((trimLeft s).reverse.dropWhile (fun c => isSpaceCh c)).reverse

/-- UTF-8 encoding of one code point (number of bytes and byte values as
produced by Go when converting `string` to `[]byte`). -/
def utf8Ch (c : Nat) : List Nat :=
  if c < 128 then [c]
  else if c < 2048 then [192 + c / 64, 128 + c % 64]
  else if c < 65536 then [224 + c / 4096, 128 + (c / 64) % 64, 128 + c % 64]
  else [240 + c / 262144, 128 + (c / 4096) % 64, 128 + (c / 64) % 64, 128 + c % 64]

/-- The bytes of the UTF-8 encoding of a string (Go `[]byte(s)`). -/
def utf8Bytes (s : List Nat) : List Nat :=
  s.flatMap utf8Ch

/-- Go `len(s)` on a string: the number of bytes of its UTF-8 encoding. -/
def utf8Len (s : List Nat) : Nat :=
  (utf8Bytes s).length

/-- Whether `pat` occurs at the head of `s`. -/
def isPrefOf : List Nat → List Nat → Bool
  | [], _ => true
  | _ :: _, [] => false
  | p :: ps, c :: cs => p == c && isPrefOf ps cs

/-- Whether `pat` occurs somewhere in `s` (`strings.Contains`). -/
def containsSeq (s pat : List Nat) : Bool :=
  match s with
  | [] => isPrefOf pat []
  | _ :: cs => isPrefOf pat s || containsSeq cs pat

/-- The number of occurrences of `pat` in `s` counted at every start
position (used to state the spec's "sum over all occurrences" reading). -/
def countOcc (pat s : List Nat) : Nat :=
  ((List.range (s.length + 1)).filter (fun p => isPrefOf pat (s.drop p))).length

/-- Go `strings.ReplaceAll`: left-to-right, non-overlapping replacement;
scanning resumes after each replacement. -/
def replaceAll (pat rep : List Nat) (s : List Nat) : List Nat :=
  match pat, s with
  | [], s => s
  | _ :: _, [] => []
  | p :: ps, c :: cs =>
    if isPrefOf (p :: ps) (c :: cs) then
      rep ++ replaceAll (p :: ps) rep ((c :: cs).drop (p :: ps).length)
    else
      c :: replaceAll (p :: ps) rep cs
  termination_by s.length
  decreasing_by
  all_goals simp [List.length_drop]
  all_goals omega

/-! ## Bounded queue (`internal/pkg/queue/queue.go`)

The mutex only serializes accesses; the sequential semantics is the
function below.  Queue items are `PageData` records in Go; the FIFO law is
independent of the element type, so the state is parametrized by the
element type and instantiated at `PageData` where the pipeline needs it. -/

/-- Errors returned by queue operations, one constructor per distinct
error string in the source ("queue is closed", "queue is full",
"Queue is empty"). -/
inductive QueueError
  | queueClosed
  | queueFull
  | queueEmpty
  deriving DecidableEq, Repr

/-- The `Queue` struct: buffered items, capacity, closed flag. -/
structure Queue (α : Type) where
  q : List α
  capacity : Int
  closed : Bool
  deriving Repr

/-- `CreateQueue`: rejects non-positive capacities. -/
def CreateQueue (α : Type) (capacity : Int) : Except QueueError (Queue α) :=
  if capacity ≤ 0 then
    .error .queueClosed -- construction error ("capacity should be greater than 0")
  else
    .ok { q := [], capacity := capacity, closed := false }

/-- `Queue.Insert`: fails when closed, appends when there is room, fails
with the queue-full error otherwise. -/
def Queue.Insert {α : Type} (qu : Queue α) (item : α) : Except QueueError (Queue α) :=
  if qu.closed then
    .error .queueClosed
  else if (qu.q.length : Int) < qu.capacity then
    .ok { qu with q := qu.q ++ [item] }
  else
    .error .queueFull

/-- `Queue.Remove`: returns the oldest element, or fails when empty. -/
def Queue.Remove {α : Type} (qu : Queue α) : Except QueueError (α × Queue α) :=
  match qu.q with
  | item :: rest => .ok (item, { qu with q := rest })
  | [] => .error .queueEmpty

/-- `Queue.Length`. -/
def Queue.Length {α : Type} (qu : Queue α) : Nat :=
  qu.q.length

/-- `Queue.IsEmpty`. -/
def Queue.IsEmpty {α : Type} (qu : Queue α) : Bool :=
  qu.q.isEmpty

/-- `Queue.Close`. -/
def Queue.Close {α : Type} (qu : Queue α) : Queue α :=
  { qu with closed := true }

/-- Folding `Insert` over a list of items; `none` as soon as one insert
fails (used to state "C successful Inserts with no intervening Removes"). -/
def Queue.InsertAll {α : Type} (qu : Queue α) : List α → Option (Queue α)
  | [] => some qu
  | x :: xs =>
    match qu.Insert x with
    | .ok qu2 => qu2.InsertAll xs
    | .error _ => none

/-- Performing `n` successive `Remove`s, collecting the returned items in
order; stops early if the queue empties. -/
def Queue.RemoveSeq {α : Type} (qu : Queue α) : Nat → List α × Queue α
  | 0 => ([], qu)
  | n + 1 =>
    match qu.Remove with
    | .ok (item, qu2) =>
      let r := qu2.RemoveSeq n
      (item :: r.1, r.2)
    | .error _ => ([], qu)

/-! ## Circuit breaker (`internal/pkg/circuitbreaker/circuit_breaker.go`)

Wall-clock instants and durations are modelled as `Nat` nanoseconds; the
clock is monotone, so `time.Since(t) = now - t`.  The wrapped call `fn`
runs outside the lock; its outcome is the boolean `fnOk` supplied by the
environment. -/

/-- The `state` string field: "closed", "open", "half-open". -/
inductive CBState
  | closed
  | opened
  | halfOpen
  deriving DecidableEq, Repr

/-- The `CircuitBreaker` struct (the mutex, service name and metrics
gauge carry no transition-relevant state). -/
structure CircuitBreaker where
  failureCount : Int
  lastFailure : Nat
  resetTimeout : Nat
  failureThreshold : Int
  state : CBState
  deriving Repr

/-- `NewCircuitBreaker`. -/
def NewCircuitBreaker (failureThreshold : Int) (resetTimeout : Nat) : CircuitBreaker :=
  { failureCount := 0
    lastFailure := 0
    resetTimeout := resetTimeout
    failureThreshold := failureThreshold
    state := .closed }

/-- Result of `CircuitBreaker.Execute`: rejected without invoking `fn`
(`ErrCircuitOpen`), or `fn` was invoked and failed, or succeeded. -/
inductive ExecResult
  | rejected
  | fnError
  | fnOk
  deriving DecidableEq, Repr

/-- `CircuitBreaker.Execute` at time `now` with wrapped-call outcome
`ok`: the two locked regions of the source, with the call in between. -/
def CircuitBreaker.Execute (cb : CircuitBreaker) (now : Nat) (ok : Bool) :
    CircuitBreaker × ExecResult :=
  -- first locked region: open-state check and half-open transition
  if cb.state = .opened ∧ ¬ (now - cb.lastFailure > cb.resetTimeout) then
    (cb, .rejected)
  else
    let cb1 := if cb.state = .opened then { cb with state := .halfOpen } else cb
    -- the wrapped call runs here, outside the lock; then the second region
    if ok then
      if cb1.state = .halfOpen then
        ({ cb1 with state := .closed, failureCount := 0 }, .fnOk)
      else
        (cb1, .fnOk)
    else
      let cb2 := { cb1 with failureCount := cb1.failureCount + 1, lastFailure := now }
      if cb2.state = .halfOpen ∨ cb2.failureCount ≥ cb2.failureThreshold then
        ({ cb2 with state := .opened }, .fnError)
      else
        (cb2, .fnError)

/-- `CircuitBreaker.State`. -/
def CircuitBreaker.State (cb : CircuitBreaker) : CBState :=
  cb.state

/-- Running a sequence of `Execute` calls, each given as a (time, wrapped
call outcome) pair. -/
def CircuitBreaker.ExecuteSeq (cb : CircuitBreaker) : List (Nat × Bool) → CircuitBreaker
  | [] => cb
  | (now, ok) :: rest => ((cb.Execute now ok).1).ExecuteSeq rest

/-! ## URL normalization (`normalizeURL` in the processor)

`normalizeURL` delegates parsing to the Go standard library.  Modelled
from the spec: `net/url` is external to the repository, and the spec says
"promote `//host/...` to `https://host/...`; lowercase scheme and host;
otherwise preserve as parsed", so a parsed URL is represented as the text
before the first `"://"` (the scheme), the following run of characters up
to the first `/ ? #` (the host, which includes any userinfo and port),
and the verbatim remainder; `URL.String` reassembles the three parts. -/

/-- Splitting a string at the first occurrence of `"://"` (code points
58, 47, 47), returning the text before and after it. -/
def splitSep : List Nat → Option (List Nat × List Nat)
  | [] => none
  | c :: cs =>
    if isPrefOf [58, 47, 47] (c :: cs) then some ([], cs.drop 2)
    else
      match splitSep cs with
      | some (before, after) => some (c :: before, after)
      | none => none

/-- A stop character ends the host segment of an authority. -/
def isHostEnd (c : Nat) : Bool :=
  c == 47 || c == 63 || c == 35 -- '/' '?' '#'

/-- Modelled from the spec: `url.Parse` for absolute URLs containing
`"://"` — scheme before the separator (parse fails when it is empty, as
`net/url` rejects a missing protocol scheme), host up to the first
`/ ? #`, remainder preserved verbatim. -/
def urlParse (s : List Nat) : Option (List Nat × List Nat × List Nat) :=
  match splitSep s with
  | none => none
  | some (scheme, after) =>
    if scheme = [] then none
    else some (scheme, after.takeWhile (fun c => !isHostEnd c), after.dropWhile (fun c => !isHostEnd c))

/-- `URL.String` for the model above: scheme `"://"` host remainder. -/
def urlString (scheme host rest : List Nat) : List Nat :=
  scheme ++ [58, 47, 47] ++ host ++ rest

/-- `normalizeURL`: trim; reject empty; reject when there is neither a
`"://"` nor a leading `"//"`; promote scheme-relative URLs to `https`;
parse; default an empty scheme to `https`; lowercase scheme and host. -/
def normalizeURL (rawURL : List Nat) : Option (List Nat) :=
  let rawURL := trimSpace rawURL
  if rawURL = [] then none
  else if ¬ (containsSeq rawURL [58, 47, 47] = true) ∧ ¬ (isPrefOf [47, 47] rawURL = true) then
    none -- "relative URL without base"
  else
    let rawURL := if isPrefOf [47, 47] rawURL then [104, 116, 116, 112, 115, 58] ++ rawURL else rawURL
    match urlParse rawURL with
    | none => none
    | some (scheme, host, rest) =>
      let scheme := if scheme = [] then [104, 116, 116, 112, 115] else scheme
      some (urlString (toLowerStr scheme) (toLowerStr host) rest)

/-! ## Bulk indexer (`internal/pkg/indexer/indexer.go`) -/

/-- `sanitizeID`: strip `http://`/`https://`, replace `/ ? & = # <space> :`
with `_`, keep only `[A-Za-z0-9_.-]`, truncate to 100 (the kept characters
are all ASCII, so Go's byte-indexed truncation is the code-point one). -/
def sanitizeID (raw : List Nat) : List Nat :=
  let clean := replaceAll [104, 116, 116, 112, 58, 47, 47] [] raw
  let clean := replaceAll [104, 116, 116, 112, 115, 58, 47, 47] [] clean
  let clean := replaceAll [47] [95] clean
  let clean := replaceAll [63] [95] clean
  let clean := replaceAll [38] [95] clean
  let clean := replaceAll [61] [95] clean
  let clean := replaceAll [35] [95] clean
  let clean := replaceAll [32] [95] clean
  let clean := replaceAll [58] [95] clean
  let result := clean.filter (fun r =>
    (97 ≤ r && r ≤ 122) || (65 ≤ r && r ≤ 90) || (48 ≤ r && r ≤ 57) ||
    r == 95 || r == 46 || r == 45)
  if result.length > 100 then result.take 100 else result

/-- `generateDocID`: canonical URL when nonempty after trimming, else the
URL, sanitized. -/
def generateDocID (urlStr canonicalStr : List Nat) : List Nat :=
  if trimSpace canonicalStr ≠ [] then sanitizeID canonicalStr else sanitizeID urlStr

/-- The document-id function as the claim words it: choose the canonical
URL if nonempty after trimming (else the URL), then strip the two scheme
prefixes, rewrite the seven separator characters to `_` in one pass, drop
everything outside `[A-Za-z0-9_.-]` and truncate to 100 characters. -/
def docIDSpec (urlStr canonicalStr : List Nat) : List Nat :=
  let chosen := if trimSpace canonicalStr ≠ [] then canonicalStr else urlStr
  let stripped := replaceAll [104, 116, 116, 112, 115, 58, 47, 47] []
    (replaceAll [104, 116, 116, 112, 58, 47, 47] [] chosen)
  let replaced := stripped.map (fun c => if c ∈ [47, 63, 38, 61, 35, 32, 58] then 95 else c)
  let kept := replaced.filter (fun r =>
    (97 ≤ r && r ≤ 122) || (65 ≤ r && r ≤ 90) || (48 ≤ r && r ≤ 57) ||
    r == 95 || r == 46 || r == 45)
  kept.take 100

/-- Outcome of one HTTP POST attempt of the bulk payload, as seen by
`sendBulkRequest`: request construction failed, transport error from
`Do`, or a response with the given status code. -/
inductive PostOutcome
  | reqError
  | transportError
  | status (code : Nat)
  deriving DecidableEq, Repr

/-- A bulk POST attempt counts as failed when the transport errors or the
status is outside 200–299. -/
def PostOutcome.failed : PostOutcome → Bool
  | .reqError => false
  | .transportError => true
  | .status code => !(200 ≤ code && code < 300)

/-- `backoffDuration` in nanoseconds: `2^attempt` seconds plus the jitter
`rand.Intn(1000)` milliseconds drawn for that call. -/
def backoffDuration (attempt : Nat) (jitterMs : Nat) : Nat :=
  2 ^ attempt * 1000000000 + jitterMs * 1000000

/-- `sendBulkRequest`, driven by an environment giving the outcome of the
POST at each attempt number and the jitter drawn for each backoff sleep.
Returns (number of POSTs issued, bulk-failure counter increments, the
sleeps performed in order). -/
def sendBulkRequest (outcome : Nat → PostOutcome) (jitter : Nat → Nat)
    (maxRetries : Nat) (attempt : Nat) : Nat × Nat × List Nat :=
  match outcome attempt with
  | .reqError => (0, 0, []) -- request construction failed: no POST, no retry
  | .transportError =>
    if attempt < maxRetries then
      let r := sendBulkRequest outcome jitter maxRetries (attempt + 1)
      (r.1 + 1, r.2.1, backoffDuration attempt (jitter attempt) :: r.2.2)
    else
      (1, 1, [])
  | .status code =>
    if 200 ≤ code ∧ code < 300 then
      (1, 0, [])
    else if attempt < maxRetries then
      let r := sendBulkRequest outcome jitter maxRetries (attempt + 1)
      (r.1 + 1, r.2.1, backoffDuration attempt (jitter attempt) :: r.2.2)
    else
      (1, 1, [])
  termination_by maxRetries + 1 - attempt
  decreasing_by
  all_goals omega

/-! ## SHA-256 and the dedup signature
(`internal/pkg/deduplicator/deduplicator.go`)

`crypto/sha256` is the FIPS 180-4 compression function; it is embedded
here executably over byte lists.  32-bit words are `Nat` values kept below
`2^32` by explicit `% 2^32` reductions. -/

/-- Word arithmetic modulo `2^32`. -/
def add32 (a b : Nat) : Nat :=
  (a + b) % 4294967296

/-- Right rotation of a 32-bit word. -/
def rotr32 (n x : Nat) : Nat :=
  (x / 2 ^ n + x % 2 ^ n * 2 ^ (32 - n)) % 4294967296

/-- Bitwise complement of a 32-bit word. -/
def not32 (x : Nat) : Nat :=
  Nat.xor x 4294967295

/-- FIPS 180-4 `Ch(x,y,z) = (x ∧ y) ⊕ (¬x ∧ z)`. -/
def ch32 (x y z : Nat) : Nat :=
  Nat.xor (Nat.land x y) (Nat.land (not32 x) z)

/-- FIPS 180-4 `Maj(x,y,z)`. -/
def maj32 (x y z : Nat) : Nat :=
  Nat.xor (Nat.xor (Nat.land x y) (Nat.land x z)) (Nat.land y z)

/-- `Σ0`. -/
def bigSigma0 (x : Nat) : Nat :=
  Nat.xor (Nat.xor (rotr32 2 x) (rotr32 13 x)) (rotr32 22 x)

/-- `Σ1`. -/
def bigSigma1 (x : Nat) : Nat :=
  Nat.xor (Nat.xor (rotr32 6 x) (rotr32 11 x)) (rotr32 25 x)

/-- `σ0`. -/
def smallSigma0 (x : Nat) : Nat :=
  Nat.xor (Nat.xor (rotr32 7 x) (rotr32 18 x)) (x / 8)

/-- `σ1`. -/
def smallSigma1 (x : Nat) : Nat :=
  Nat.xor (Nat.xor (rotr32 17 x) (rotr32 19 x)) (x / 1024)

/-- The 64 SHA-256 round constants. -/
def sha256K : List Nat :=
  [0x428A2F98, 0x71374491, 0xB5C0FBCF, 0xE9B5DBA5, 0x3956C25B, 0x59F111F1,
   0x923F82A4, 0xAB1C5ED5, 0xD807AA98, 0x12835B01, 0x243185BE, 0x550C7DC3,
   0x72BE5D74, 0x80DEB1FE, 0x9BDC06A7, 0xC19BF174, 0xE49B69C1, 0xEFBE4786,
   0x0FC19DC6, 0x240CA1CC, 0x2DE92C6F, 0x4A7484AA, 0x5CB0A9DC, 0x76F988DA,
   0x983E5152, 0xA831C66D, 0xB00327C8, 0xBF597FC7, 0xC6E00BF3, 0xD5A79147,
   0x06CA6351, 0x14292967, 0x27B70A85, 0x2E1B2138, 0x4D2C6DFC, 0x53380D13,
   0x650A7354, 0x766A0ABB, 0x81C2C92E, 0x92722C85, 0xA2BFE8A1, 0xA81A664B,
   0xC24B8B70, 0xC76C51A3, 0xD192E819, 0xD6990624, 0xF40E3585, 0x106AA070,
   0x19A4C116, 0x1E376C08, 0x2748774C, 0x34B0BCB5, 0x391C0CB3, 0x4ED8AA4A,
   0x5B9CCA4F, 0x682E6FF3, 0x748F82EE, 0x78A5636F, 0x84C87814, 0x8CC70208,
   0x90BEFFFA, 0xA4506CEB, 0xBEF9A3F7, 0xC67178F2]

/-- The eight working variables of the compression function. -/
structure Sha256State where
  a : Nat
  b : Nat
  c : Nat
  d : Nat
  e : Nat
  f : Nat
  g : Nat
  h : Nat
  deriving Repr

/-- Initial hash value `H(0)`. -/
def sha256Init : Sha256State :=
  { a := 0x6A09E667, b := 0xBB67AE85, c := 0x3C6EF372, d := 0xA54FF53A
    e := 0x510E527F, f := 0x9B05688C, g := 0x1F83D9AB, h := 0x5BE0CD19 }

/-- Big-endian 32-bit words from a byte stream (the padded message length
is a multiple of 4). -/
def bytesToWords : List Nat → List Nat
  | b0 :: b1 :: b2 :: b3 :: rest =>
    (((b0 * 256 + b1) * 256 + b2) * 256 + b3) :: bytesToWords rest
  | _ => []

/-- Message-schedule extension from 16 to 64 words. -/
def sha256Extend (w : List Nat) : Nat → List Nat
  | 0 => w
  | n + 1 =>
    let w := sha256Extend w n
    let i := w.length
    w ++ [add32 (add32 (smallSigma1 (w.getD (i - 2) 0)) (w.getD (i - 7) 0))
            (add32 (smallSigma0 (w.getD (i - 15) 0)) (w.getD (i - 16) 0))]

/-- One round of the compression function. -/
def sha256Round (st : Sha256State) (k w : Nat) : Sha256State :=
  let t1 := add32 (add32 st.h (bigSigma1 st.e)) (add32 (ch32 st.e st.f st.g) (add32 k w))
  let t2 := add32 (bigSigma0 st.a) (maj32 st.a st.b st.c)
  { a := add32 t1 t2, b := st.a, c := st.b, d := st.c
    e := add32 st.d t1, f := st.e, g := st.f, h := st.g }

/-- Running the 64 rounds over paired constants and schedule words. -/
def sha256Rounds (st : Sha256State) : List (Nat × Nat) → Sha256State
  | [] => st
  | (k, w) :: rest => sha256Rounds (sha256Round st k w) rest

/-- Compressing one 64-byte block into the chaining state. -/
def sha256Block (st : Sha256State) (block : List Nat) : Sha256State :=
  let w := sha256Extend (bytesToWords block) 48
  let r := sha256Rounds st (sha256K.zip w)
  { a := add32 st.a r.a, b := add32 st.b r.b, c := add32 st.c r.c
    d := add32 st.d r.d, e := add32 st.e r.e, f := add32 st.f r.f
    g := add32 st.g r.g, h := add32 st.h r.h }

/-- Folding the compression function over consecutive 64-byte blocks. -/
def sha256Blocks (st : Sha256State) (msg : List Nat) : Sha256State :=
  if h : msg.length < 64 then st
  else sha256Blocks (sha256Block st (msg.take 64)) (msg.drop 64)
  termination_by msg.length
  decreasing_by
  simp at h ⊢
  omega

/-- FIPS 180-4 padding: `0x80`, zeros to 56 mod 64, and the 8-byte
big-endian bit length. -/
def sha256Pad (msg : List Nat) : List Nat :=
  let len := msg.length
  let zeros := (55 + 64 - len % 64) % 64
  let bitLen := len * 8
  msg ++ [128] ++ List.replicate zeros 0 ++
    [bitLen / 2 ^ 56 % 256, bitLen / 2 ^ 48 % 256, bitLen / 2 ^ 40 % 256,
     bitLen / 2 ^ 32 % 256, bitLen / 2 ^ 24 % 256, bitLen / 2 ^ 16 % 256,
     bitLen / 2 ^ 8 % 256, bitLen % 256]

/-- A 32-bit word as four big-endian bytes. -/
def wordBytes (w : Nat) : List Nat :=
  [w / 2 ^ 24 % 256, w / 2 ^ 16 % 256, w / 2 ^ 8 % 256, w % 256]

/-- `sha256.Sum256`: the 32-byte digest of a byte message. -/
def sha256Sum (msg : List Nat) : List Nat :=
  let st := sha256Blocks sha256Init (sha256Pad msg)
  wordBytes st.a ++ wordBytes st.b ++ wordBytes st.c ++ wordBytes st.d ++
  wordBytes st.e ++ wordBytes st.f ++ wordBytes st.g ++ wordBytes st.h

/-- The sixteen lowercase hex digit code points. -/
def hexDigit (n : Nat) : Nat :=
  [48, 49, 50, 51, 52, 53, 54, 55, 56, 57, 97, 98, 99, 100, 101, 102].getD n 0

/-- `hex.EncodeToString` over a byte list. -/
def hexEncode (bytes : List Nat) : List Nat :=
  bytes.flatMap (fun b => [hexDigit (b / 16), hexDigit (b % 16)])

/-- `GenerateSignature` (package `deduper`): lowercase hex of the SHA-256
digest of the UTF-8 bytes of the whitespace-trimmed text. -/
def GenerateSignature (text : List Nat) : List Nat :=
  hexEncode (sha256Sum (utf8Bytes (trimSpace text)))

/-! ## Spam detector (package `spamdetector`)

The phrase list `spamPhrases` and the explicit `weights` map live in a
repository file that is not present under `src/`; following the spec
("Configured with a sequence of lowercase phrases, per-phrase weights
(default 1), and a block threshold S") they are parameters of the
detector, with non-negative weights.  The matcher is
`github.com/cloudflare/ahocorasick`; modelled from that library's
documented behaviour: `Matcher.Match` returns the indices of the
dictionary patterns that occur in the input, each index at most once per
call, and an empty pattern is never reported. -/

/-- The `SpamDetector` struct: original phrases, per-phrase scores and
the block threshold.  The Aho-Corasick matcher is determined by the
lowercased phrases (see `acMatch`). -/
structure SpamDetector where
  spamPhrases : List (List Nat)
  weights : List Nat → Option Nat
  blockThreshold : Int

/-- The `SpamResult` struct. -/
structure SpamResult where
  Score : Int
  IsHighSpam : Bool
  deriving DecidableEq, Repr

/-- `NewSpamDetector` keeps the phrases and threshold; the matcher
patterns are the lowercased phrases. -/
def NewSpamDetector (spamPhrases : List (List Nat)) (weights : List Nat → Option Nat)
    (blockThreshold : Int) : SpamDetector :=
  { spamPhrases := spamPhrases, weights := weights, blockThreshold := blockThreshold }

/-- The `phraseScores` map built by the constructor: the explicit weight
when present, else the default weight 1. -/
def SpamDetector.phraseScores (sd : SpamDetector) (phrase : List Nat) : Nat :=
  (sd.weights phrase).getD 1

/-- Modelled from the `cloudflare/ahocorasick` library: the indices of
the nonempty dictionary patterns occurring in the input, each reported
once. -/
def acMatch (patterns : List (List Nat)) (input : List Nat) : List Nat :=
  (List.range patterns.length).filter
    (fun i => !(patterns.getD i []).isEmpty && containsSeq input (patterns.getD i []))

/-- `SpamDetector.DetectSpam`: empty text scores (0, false); otherwise
lowercase, match, sum the matched phrases' scores, rescale by
`* 5000 / runeLength` when the text has more than 5000 characters and at
least one match, and compare with the block threshold. -/
def SpamDetector.DetectSpam (sd : SpamDetector) (text : List Nat) : SpamResult :=
  if text = [] then
    { Score := 0, IsHighSpam := false }
  else
    let lowerText := toLowerStr text
    let textLength := text.length
    let hits := acMatch (sd.spamPhrases.map toLowerStr) lowerText
    let totalScore : Nat := (hits.map (fun hit => sd.phraseScores (sd.spamPhrases.getD hit []))).sum
    let totalScore : Nat :=
      if textLength > 0 ∧ hits.length > 0 then
        if textLength > 5000 then totalScore * 5000 / textLength else totalScore
      else totalScore
    { Score := totalScore, IsHighSpam := decide ((totalScore : Int) ≥ sd.blockThreshold) }

/-- The scorer exactly as the claim words it: sum the per-match weights
over ALL occurrences of each configured phrase (counting every start
position), with the same empty-input rule, rescaling and threshold. -/
def SpamDetector.DetectSpamAllOccurrences (sd : SpamDetector) (text : List Nat) : SpamResult :=
  if text = [] then
    { Score := 0, IsHighSpam := false }
  else
    let lowerText := toLowerStr text
    let textLength := text.length
    let totalScore : Nat :=
      (sd.spamPhrases.map (fun phrase =>
        countOcc (toLowerStr phrase) lowerText * sd.phraseScores phrase)).sum
    let anyMatch := sd.spamPhrases.any (fun phrase => decide (0 < countOcc (toLowerStr phrase) lowerText))
    let totalScore : Nat :=
      if textLength > 5000 ∧ anyMatch = true then totalScore * 5000 / textLength else totalScore
    { Score := totalScore, IsHighSpam := decide ((totalScore : Int) ≥ sd.blockThreshold) }

/-- The scorer as the amended claim words it: like
`DetectSpamAllOccurrences`, but each configured phrase contributes its
weight at most once no matter how many times it occurs (the Aho-Corasick
matcher reports each dictionary pattern at most once per call). -/
def SpamDetector.DetectSpamOncePerPhrase (sd : SpamDetector) (text : List Nat) : SpamResult :=
  if text = [] then
    { Score := 0, IsHighSpam := false }
  else
    let lowerText := toLowerStr text
    let textLength := text.length
    let totalScore : Nat :=
      (sd.spamPhrases.map (fun phrase =>
        min (countOcc (toLowerStr phrase) lowerText) 1 * sd.phraseScores phrase)).sum
    let anyMatch := sd.spamPhrases.any (fun phrase => decide (0 < countOcc (toLowerStr phrase) lowerText))
    let totalScore : Nat :=
      if textLength > 5000 ∧ anyMatch = true then totalScore * 5000 / textLength else totalScore
    { Score := totalScore, IsHighSpam := decide ((totalScore : Int) ≥ sd.blockThreshold) }

/-! ## NLP batch processor (`internal/pkg/processor/deduplicator.go`,
`BatchProcessor`)

The concurrency is serialized into traces.  A trace interleaves the three
events that touch the batch state: a caller's `Process` appending one
item to `currentBatch` (`submit`), the batching goroutine waking on the
flush signal or the ticker and running `processBatch` (`wake`), and the
goroutine waking on the closed `done` channel and returning (`stop`).
Each `wake` carries the responses of the environment (breaker state, rate
limiter, HTTP exchange) for that batch.  Item mailboxes are single-slot
channels created one per submission; `delivered` records every mailbox
write as (item, kind). -/

/-- What a mailbox write carries: a parsed result, `ErrCircuitOpen`, or
one of the other error values (rate limit, marshal, HTTP/decode, format
mismatch). -/
inductive RKind
  | ok
  | circuitOpenErr
  | otherErr
  deriving DecidableEq, Repr

/-- The environment's response for one `processBatch` run. -/
inductive BatchOutcome
  /-- the breaker's `State()` read "open" -/
  | circuitOpen
  /-- `rateLimiter.Wait` returned an error -/
  | rateLimited
  /-- `json.Marshal` failed -/
  | marshalError
  /-- `circuitBreaker.Execute` returned an error (its own
  `ErrCircuitOpen`, a transport error, a non-200 status or a decode
  failure) -/
  | execError
  /-- response decoded but `results` is not a list -/
  | badFormat
  /-- `results` is a list of per-item values; `true` marks an entry that
  parses as a result object, `false` one that fails `invalid result
  format` -/
  | results (rs : List Bool)
  deriving DecidableEq, Repr

/-- The mailbox writes `processBatch` performs for a swapped-out batch,
in order: every path writes to every item's mailbox exactly once, except
that a `results` list of mismatched length is the format-error path. -/
def processBatchDeliveries (batch : List Nat) : BatchOutcome → List (Nat × RKind)
  | .circuitOpen => batch.map (fun i => (i, RKind.circuitOpenErr))
  | .rateLimited => batch.map (fun i => (i, RKind.otherErr))
  | .marshalError => batch.map (fun i => (i, RKind.otherErr))
  | .execError => batch.map (fun i => (i, RKind.otherErr))
  | .badFormat => batch.map (fun i => (i, RKind.otherErr))
  | .results rs =>
    if rs.length ≠ batch.length then
      batch.map (fun i => (i, RKind.otherErr))
    else
      (batch.zip rs).map (fun p => (p.1, if p.2 then RKind.ok else RKind.otherErr))

/-- The serialized state of the batch processor: the current batch, the
log of mailbox writes, and whether the batching goroutine has returned. -/
structure BPState where
  pending : List Nat
  delivered : List (Nat × RKind)
  stopped : Bool
  deriving DecidableEq, Repr

/-- The state after `NewBatchProcessor`. -/
def bpInit : BPState :=
  { pending := [], delivered := [], stopped := false }

/-- One serialized event. -/
inductive BPStep
  /-- a caller's `Process(ctx, text)` with nonempty text appends its item -/
  | submit (i : Nat)
  /-- the goroutine wakes on `processingChan` or the ticker and runs
  `processBatch`; no-op once the goroutine has returned -/
  | wake (o : BatchOutcome)
  /-- the goroutine wakes on the closed `done` channel and returns
  without touching the batch -/
  | stop

/-- The effect of one event.  `processBatch` returns immediately on an
empty batch; otherwise it swaps the batch out and delivers per
`processBatchDeliveries`.  `Process` appends to `currentBatch` whether or
not the goroutine is still running. -/
def bpStep (s : BPState) : BPStep → BPState
  | .submit i => { s with pending := s.pending ++ [i] }
  | .wake o =>
    if s.stopped then s
    else if s.pending = [] then s
    else { s with pending := [], delivered := s.delivered ++ processBatchDeliveries s.pending o }
  | .stop => { s with stopped := true }

/-- Running a trace from the initial state. -/
def bpRun (tr : List BPStep) : BPState :=
  tr.foldl bpStep bpInit

/-- The items submitted in a trace, in order. -/
def bpSubmitted (tr : List BPStep) : List Nat :=
  tr.filterMap (fun e => match e with | .submit i => some i | _ => none)

/-- How many results item `i` has received in state `s`. -/
def bpCount (s : BPState) (i : Nat) : Nat :=
  (s.delivered.filter (fun p => p.1 == i)).length

/-! ## Data model (`internal/pkg/models`)

Timestamps (`time.Time`) are `Nat` nanoseconds since an epoch; durations
(`time.Duration`) are `Int` nanoseconds; maps are association lists. -/

/-- `models.PageData`. -/
structure PageData where
  URL : List Nat := []
  CanonicalURL : List Nat := []
  Title : List Nat := []
  Charset : List Nat := []
  MetaDescription : List Nat := []
  MetaKeywords : List Nat := []
  Language : List Nat := []
  Headings : List (List Nat × List (List Nat)) := []
  AltTexts : List (List Nat) := []
  AnchorTexts : List (List Nat) := []
  InternalLinks : List (List Nat) := []
  ExternalLinks : List (List Nat) := []
  StructuredData : List (List Nat) := []
  OpenGraph : List (List Nat × List Nat) := []
  DatePublished : Nat := 0
  DateModified : Nat := 0
  SocialLinks : List (List Nat) := []
  VisibleText : List Nat := []
  LoadTime : Int := 0
  IsSecure : Bool := false
  FetchError : List Nat := []
  deriving DecidableEq, Repr

/-- `models.StructuredData` (the `Type` field is primed because `Type`
is a Lean keyword). -/
structure StructuredData where
  Context : List Nat := []
  Type' : List Nat := []
  deriving DecidableEq, Repr

/-- `models.OpenGraph`. -/
structure OpenGraph where
  OGTitle : List Nat := []
  OGDescription : List Nat := []
  OGImage : List Nat := []
  deriving DecidableEq, Repr

/-- `models.Document`.  The struct version under `src/` lacks the
`SpamScore` and `Language` fields that the processor assigns; modelled
from the spec ("spam score (integer), language code"), they are included
here. -/
structure Document where
  URL : List Nat := []
  CanonicalURL : List Nat := []
  Title : List Nat := []
  MetaDescription : List Nat := []
  VisibleText : List Nat := []
  Entities : List (List Nat) := []
  Keywords : List (List Nat) := []
  InternalLinks : List (List Nat) := []
  ExternalLinks : List (List Nat) := []
  StructuredData : StructuredData := {}
  OpenGraph : OpenGraph := {}
  DatePublished : Nat := 0
  DateModified : Nat := 0
  Categories : List (List Nat) := []
  Tags : List (List Nat) := []
  SocialLinks : List (List Nat) := []
  LoadTime : Int := 0
  IsSecure : Bool := false
  QualityScore : Int := 0
  InboundLinkCount : Int := 0
  LastCrawled : Nat := 0
  SpamScore : Int := 0
  Language : List Nat := []
  deriving DecidableEq, Repr

/-- The zero `Document` (`var document models.Document` in the worker). -/
def zeroDocument : Document := {}

/-! ## NLP enricher (`nlpEnricher.Enrich`, `calculateQualityScore`) -/

/-- One entity of the NLP response (`{text, label}`). -/
structure NlpEntity where
  Text : List Nat := []
  Label : List Nat := []
  deriving DecidableEq, Repr

/-- The outcome of `batchProcessor.Process` as seen by `Enrich`: an error
(HTTP/decode/rate-limit/`ErrCircuitOpen`/context timeout) or the parsed
entities and keyphrases. -/
inductive NlpOutcome
  | nlpError
  | nlpOk (entities : List NlpEntity) (keyphrases : List (List Nat))
  deriving DecidableEq, Repr

/-- One Go `if cond { score += c }` statement. -/
def addIf (b : Prop) [Decidable b] (c : Int) (score : Int) : Int :=
  if b then score + c else score

/-- `calculateQualityScore`: additive structural score, capped at 100.
String lengths are Go byte lengths. -/
def calculateQualityScore (doc : Document) : Int :=
  let score : Int := 0
  let score := addIf (utf8Len doc.VisibleText > 100) 10 score
  let score := addIf (utf8Len doc.Title > 5 ∧ utf8Len doc.Title < 150) 10 score
  let score := addIf (utf8Len doc.MetaDescription > 50) 5 score
  let score := addIf (doc.Entities.length ≥ 1) 10 score
  let score := addIf (doc.Keywords.length > 3) 10 score
  let score := addIf (doc.InternalLinks.length > 0) 5 score
  let score := addIf (doc.ExternalLinks.length > 0) 5 score
  let score := addIf (doc.Language = [101, 110]) 10 score -- "en"
  let score := addIf (doc.IsSecure = true) 25 score
  let score :=
    if doc.LoadTime < 1000 then score + 10
    else if doc.LoadTime < 2000 then score + 5
    else if doc.LoadTime < 3000 then score + 2
    else score
  if score > 100 then 100 else score

/-- `fmt.Sprintf("%s: %s", label, text)`. -/
def entityString (e : NlpEntity) : List Nat :=
  e.Label ++ [58, 32] ++ e.Text

/-- `nlpEnricher.Enrich` at time `now` with NLP response `nlp`: skip on
empty text; on NLP error log and succeed without touching the document;
otherwise copy entities, keywords and page fields, convert the load time
to milliseconds when positive, compute the quality score and stamp
`LastCrawled`.  The returned error is always `nil` in the source. -/
def Enrich (pageData : PageData) (doc : Document) (nlp : NlpOutcome) (now : Nat) : Document :=
  if pageData.VisibleText = [] then doc
  else
    match nlp with
    | .nlpError => doc
    | .nlpOk entities keyphrases =>
      let doc := { doc with
        Entities := entities.map entityString
        Keywords := keyphrases
        URL := pageData.URL
        CanonicalURL := pageData.CanonicalURL
        Title := pageData.Title
        MetaDescription := pageData.MetaDescription
        Language := pageData.Language
        VisibleText := pageData.VisibleText
        InternalLinks := pageData.InternalLinks
        ExternalLinks := pageData.ExternalLinks
        DatePublished := pageData.DatePublished
        DateModified := pageData.DateModified
        SocialLinks := pageData.SocialLinks
        IsSecure := pageData.IsSecure }
      let doc := if pageData.LoadTime > 0 then { doc with LoadTime := pageData.LoadTime / 1000000 } else doc
      let doc := { doc with QualityScore := calculateQualityScore doc }
      { doc with LastCrawled := now }

/-! ## Processor pipeline (`processor.Process` and its stages) -/

/-- `basicHTMLCleanup`: `strings.Join(strings.Fields(strings.TrimSpace(s)), " ")`
— split on whitespace runs and re-join the fields with single spaces. -/
def basicHTMLCleanup (input : List Nat) : List Nat :=
  let fields := (input.splitOnP (fun c => isSpaceCh c)).filter (fun w => w ≠ [])
  (fields.intersperse [32]).flatten

/-- `normalizeURLs`: keep the normalizations that succeed. -/
def normalizeURLs (urls : List (List Nat)) : List (List Nat) :=
  urls.filterMap normalizeURL

/-- `cleanAndNormalize`: clean the visible text into the document,
normalize the primary URL (failing the pipeline on error), replace the
canonical URL only if it normalizes, and filter the link lists. -/
def cleanAndNormalize (pageData : PageData) (doc : Document) :
    Option (PageData × Document) :=
  let doc := { doc with VisibleText := basicHTMLCleanup pageData.VisibleText }
  match normalizeURL pageData.URL with
  | none => none
  | some u =>
    let doc := { doc with URL := u }
    let pageData :=
      match normalizeURL pageData.CanonicalURL with
      | some canonical => { pageData with CanonicalURL := canonical }
      | none => pageData
    let pageData := { pageData with
      InternalLinks := normalizeURLs pageData.InternalLinks
      ExternalLinks := normalizeURLs pageData.ExternalLinks }
    some (pageData, doc)

/-- The outcome of `languagedetector.DetectLanguage` as seen by
`detectLanguage`: a language code with no error, the "not an English
page" sentinel error (whose code the caller matches on), or any other
detection failure. -/
inductive LangOutcome
  | langOk (code : List Nat)
  | notEnglish (code : List Nat)
  | langFailed
  deriving DecidableEq, Repr

/-- `detectLanguage`: store the detected code, or skip non-English
pages, or store "unknown" on failure. -/
def detectLanguage (pageData : PageData) (lang : LangOutcome) : Option PageData :=
  match lang with
  | .langOk code => some { pageData with Language := code }
  | .notEnglish _ => none -- "not an English page, skipping"
  | .langFailed => some { pageData with Language := [117, 110, 107, 110, 111, 119, 110] } -- "unknown"

/-- The distinct pipeline-stopping errors of `processor.Process`. -/
inductive ProcError
  | invalidURL
  | duplicate
  | nonEnglish
  | highSpam
  deriving DecidableEq, Repr

/-- The external responses consumed by one `processor.Process` call. -/
structure ProcEnv where
  /-- the dedup store's answer for this page's signature -/
  isDup : Bool
  /-- the language detector's outcome -/
  lang : LangOutcome
  /-- the NLP batch call's outcome inside `Enrich` -/
  nlp : NlpOutcome
  /-- `time.Now()` when `Enrich` stamps `LastCrawled` -/
  now : Nat

/-- `processor.Process`: clean/normalize, dedup on the signature of the
page's visible text, language detection, spam scoring, enrichment, and
the spam penalty on the quality score. -/
def Process (sd : SpamDetector) (env : ProcEnv) (pageData : PageData) (doc : Document) :
    Except ProcError Document :=
  match cleanAndNormalize pageData doc with
  | none => .error .invalidURL
  | some (pageData, doc) =>
    -- dedup check on GenerateSignature(pageData.VisibleText)
    if env.isDup then .error .duplicate
    else
      match detectLanguage pageData env.lang with
      | none => .error .nonEnglish
      | some pageData =>
        let spamResult := sd.DetectSpam pageData.VisibleText
        let doc := { doc with SpamScore := spamResult.Score }
        if spamResult.IsHighSpam then .error .highSpam
        else
          let doc := Enrich pageData doc env.nlp env.now
          let doc :=
            if doc.SpamScore > 0 then
              let qualityPenalty := doc.SpamScore * 2
              if doc.QualityScore > qualityPenalty then
                { doc with QualityScore := doc.QualityScore - qualityPenalty }
              else
                { doc with QualityScore := 0 }
            else doc
          .ok doc

/-! ## Inputs used by witness theorems -/

/-- A 2-element batch of page records for the queue witness. -/
def pageA : PageData := { URL := [104, 116, 116, 112, 58, 47, 47, 97] } -- "http://a"

/-- A second page record, distinct from `pageA`. -/
def pageB : PageData := { URL := [104, 116, 116, 112, 58, 47, 47, 98] } -- "http://b"

/-- A detector with no configured phrases and block threshold 10. -/
def sdEmpty : SpamDetector := NewSpamDetector [] (fun _ => none) 10

/-- Environment responses for a fully successful pipeline run. -/
def envOkRun : ProcEnv :=
  { isDup := false, lang := .langOk [101, 110], nlp := .nlpOk [] [], now := 7 }

/-- Environment responses for a run whose NLP batch call fails. -/
def envNlpErr : ProcEnv :=
  { isDup := false, lang := .langOk [101, 110], nlp := .nlpError, now := 7 }

/-- A page with visible text `" x y"` (cleaned: `"x y"`). -/
def pageC : PageData :=
  { URL := [104, 116, 116, 112, 58, 47, 47, 97], VisibleText := [32, 120, 32, 121] }

/-- The document the pipeline emits for `pageA` under `envOkRun`. -/
def docOutA : Document := { zeroDocument with URL := [104, 116, 116, 112, 58, 47, 47, 97] }

/-- The document the pipeline emits for `pageC` under `envNlpErr`. -/
def docOutC : Document :=
  { zeroDocument with URL := [104, 116, 116, 112, 58, 47, 47, 97], VisibleText := [120, 32, 121] }

/-- The trace used by the C1 witness: items 0 and 1 are processed in a
batch after the breaker reported open; item 2 is pending at stop. -/
def trW : List BPStep :=
  [BPStep.submit 0, BPStep.submit 1, BPStep.wake BatchOutcome.circuitOpen,
    BPStep.submit 2, BPStep.stop]

/-- One whitespace-free text per bit vector: character `a` for bit 0 and
`b` for bit 1.  A family of `2 ^ 257` pairwise distinct trimmed texts, used
to exhibit a SHA-256 signature collision by counting. -/
def bitString (f : Fin 257 → Fin 2) : List Nat :=
  List.ofFn (fun i => 97 + (f i).val)

/-!
# Theorems

Helper lemmas first, then one theorem per claim (with its witness or
counterexample where required). -/

/-! ### Queue lemmas and claim C5 -/

theorem insertAll_from {α : Type} (xs : List α) (pre : List α) (C : Int)
    (h : (pre.length : Int) + xs.length ≤ C) :
    Queue.InsertAll ⟨pre, C, false⟩ xs = some ⟨pre ++ xs, C, false⟩ := by
  induction xs generalizing pre with
  | nil => simp [Queue.InsertAll]
  | cons x xs ih =>
    have hlt : ((pre.length : Int) < C) := by
      simp only [List.length_cons] at h
      push_cast at h
      omega
    have hstep : Queue.Insert ⟨pre, C, false⟩ x = .ok ⟨pre ++ [x], C, false⟩ := by
      simp [Queue.Insert, hlt]
    have hrec := ih (pre ++ [x]) (by
      simp only [List.length_cons, List.length_append, List.length_nil] at h ⊢
      push_cast at h ⊢
      omega)
    simp only [Queue.InsertAll, hstep]
    rw [hrec]
    simp

theorem removeSeq_all {α : Type} (xs : List α) (C : Int) (cl : Bool) :
    (Queue.RemoveSeq ⟨xs, C, cl⟩ xs.length).1 = xs := by
  induction xs with
  | nil => simp [Queue.RemoveSeq]
  | cons x xs ih =>
    simp only [List.length_cons, Queue.RemoveSeq, Queue.Remove]
    simpa using ih

/-- C5.  For a queue of capacity `C > 0`: `C` inserts into the fresh
queue all succeed, the next insert fails with the queue-full error, and
successive removes return the inserted items in FIFO order. -/
theorem claim_C5_queue_full_and_fifo (C : Int) (xs : List PageData) (x : PageData)
    (hC : 0 < C) (hlen : (xs.length : Int) = C) :
    ∃ q0 q1 : Queue PageData,
      CreateQueue PageData C = .ok q0 ∧
      q0.InsertAll xs = some q1 ∧
      q1.Insert x = .error .queueFull ∧
      (q1.RemoveSeq xs.length).1 = xs := by
  refine ⟨⟨[], C, false⟩, ⟨xs, C, false⟩, ?_, ?_, ?_, ?_⟩
  · unfold CreateQueue
    rw [if_neg (by omega)]
  · simpa using insertAll_from xs [] C (by simp [hlen])
  · simp [Queue.Insert, hlen]
  · exact removeSeq_all xs C false

/-- Witness for C5 at capacity 2 and two concrete pages. -/
theorem claim_C5_witness :
    (0 : Int) < 2 ∧ (([pageA, pageB].length : Int) = 2) ∧
    (∃ q0 q1 : Queue PageData,
      CreateQueue PageData 2 = .ok q0 ∧
      q0.InsertAll [pageA, pageB] = some q1 ∧
      q1.Insert pageA = .error .queueFull ∧
      (q1.RemoveSeq [pageA, pageB].length).1 = [pageA, pageB]) :=
  ⟨by decide, by decide,
    claim_C5_queue_full_and_fifo 2 [pageA, pageB] pageA (by decide) (by decide)⟩

/-! ### Circuit breaker: claim C2 -/

/-- C2 counterexample.  With threshold `F = 2`: a failure, then a
success, then a failure.  The claim says the success resets the failure
count to 0 and the breaker opens only after 2 consecutive failures; in
the code the count stays at 1 after the success and the second,
non-consecutive failure opens the breaker. -/
theorem claim_C2_counterexample :
    (((NewCircuitBreaker 2 30).Execute 1 false).1.Execute 2 true).1.failureCount = 1 ∧
    (((NewCircuitBreaker 2 30).Execute 1 false).1.Execute 2 true).1.state = CBState.closed ∧
    ((((NewCircuitBreaker 2 30).Execute 1 false).1.Execute 2 true).1.Execute 3 false).1.state
      = CBState.opened := by
  decide

/-- C2 as amended.  While the breaker is Closed, a successful call
leaves the state Closed and the failure count unchanged (it is reset
only by a successful Half-Open probe); a failed call increments the
count and the breaker opens exactly when the incremented count reaches
the threshold — so the threshold counts cumulative, not consecutive,
failures. -/
theorem claim_C2_closed_transitions (cb : CircuitBreaker) (now : Nat)
    (h : cb.state = CBState.closed) :
    ((cb.Execute now true).1.state = CBState.closed ∧
     (cb.Execute now true).1.failureCount = cb.failureCount) ∧
    ((cb.Execute now false).1.failureCount = cb.failureCount + 1 ∧
     (cb.Execute now false).1.state =
       (if cb.failureCount + 1 ≥ cb.failureThreshold then CBState.opened else CBState.closed)) := by
  obtain ⟨fc, lf, rt, ft, st⟩ := cb
  dsimp only at h
  subst h
  refine ⟨⟨?_, ?_⟩, ?_, ?_⟩
  · simp [CircuitBreaker.Execute]
  · simp [CircuitBreaker.Execute]
  · simp [CircuitBreaker.Execute]
    split <;> rfl
  · by_cases hth : fc + 1 ≥ ft
    · simp [CircuitBreaker.Execute, hth]
    · simp [CircuitBreaker.Execute, hth]

/-- Witness for C2 (amended) on a fresh breaker with threshold 2. -/
theorem claim_C2_witness :
    (NewCircuitBreaker 2 30).state = CBState.closed ∧
    ((((NewCircuitBreaker 2 30).Execute 7 true).1.state = CBState.closed ∧
      ((NewCircuitBreaker 2 30).Execute 7 true).1.failureCount = (NewCircuitBreaker 2 30).failureCount) ∧
     (((NewCircuitBreaker 2 30).Execute 7 false).1.failureCount = (NewCircuitBreaker 2 30).failureCount + 1 ∧
      ((NewCircuitBreaker 2 30).Execute 7 false).1.state =
        (if (NewCircuitBreaker 2 30).failureCount + 1 ≥ (NewCircuitBreaker 2 30).failureThreshold
         then CBState.opened else CBState.closed))) :=
  ⟨by decide, claim_C2_closed_transitions (NewCircuitBreaker 2 30) 7 (by decide)⟩

/-! ### Bulk indexer retries: claim C6 -/

theorem sendBulk_all_failed (outcome : Nat → PostOutcome) (jitter : Nat → Nat)
    (M : Nat) (hfail : ∀ i, i ≤ M → (outcome i).failed = true) :
    ∀ n a, a + n = M →
      sendBulkRequest outcome jitter M a =
        (n + 1, 1, (List.range' a n).map (fun t => backoffDuration t (jitter t))) := by
  intro n
  induction n with
  | zero =>
    intro a ha
    have hf := hfail a (by omega)
    unfold sendBulkRequest
    match ho : outcome a with
    | .reqError => rw [ho] at hf; simp [PostOutcome.failed] at hf
    | .transportError => simp [ho, show ¬ a < M by omega, List.range']
    | .status code =>
      rw [ho] at hf
      simp only [PostOutcome.failed] at hf
      have : ¬ (200 ≤ code ∧ code < 300) := by
        intro hcode
        simp [hcode.1, hcode.2] at hf
      simp [ho, this, show ¬ a < M by omega, List.range']
  | succ n ih =>
    intro a ha
    have hf := hfail a (by omega)
    have hrec := ih (a + 1) (by omega)
    unfold sendBulkRequest
    match ho : outcome a with
    | .reqError => rw [ho] at hf; simp [PostOutcome.failed] at hf
    | .transportError =>
      simp only [ho, show a < M by omega, if_pos]
      rw [hrec]
      simp [List.range']
    | .status code =>
      rw [ho] at hf
      simp only [PostOutcome.failed] at hf
      have hc : ¬ (200 ≤ code ∧ code < 300) := by
        intro hcode
        simp [hcode.1, hcode.2] at hf
      simp only [ho, show a < M by omega, if_pos, if_neg hc]
      rw [hrec]
      simp [List.range']

/-- C6.  When every POST of the payload fails (transport error or status
outside 200–299), `sendBulkRequest` starting at attempt 0 with max
retries `M` performs exactly `M + 1` POSTs, sleeping
`backoffDuration(attempt)` between consecutive attempts (attempts `0`
through `M-1` are each followed by one sleep), and increments the
bulk-failure counter exactly once. -/
theorem claim_C6_retry_bound (outcome : Nat → PostOutcome) (jitter : Nat → Nat) (M : Nat)
    (hfail : ∀ i, i ≤ M → (outcome i).failed = true) :
    sendBulkRequest outcome jitter M 0 =
      (M + 1, 1, (List.range M).map (fun t => backoffDuration t (jitter t))) := by
  have := sendBulk_all_failed outcome jitter M hfail M 0 (by omega)
  rw [List.range_eq_range']
  exact this

/-- Witness for C6: a backend that always times out, `M = 2`. -/
theorem claim_C6_witness :
    (∀ i, i ≤ 2 → (PostOutcome.transportError).failed = true) ∧
    sendBulkRequest (fun _ => PostOutcome.transportError) (fun _ => 5) 2 0 =
      (3, 1, [backoffDuration 0 5, backoffDuration 1 5]) :=
  ⟨fun _ _ => rfl,
    claim_C6_retry_bound (fun _ => PostOutcome.transportError) (fun _ => 5) 2 (fun _ _ => rfl)⟩

/-! ### Document ids: claim C7 -/

theorem replaceAll_single (a b : Nat) (l : List Nat) :
    replaceAll [a] [b] l = l.map (fun c => if c = a then b else c) := by
  induction l with
  | nil => simp [replaceAll]
  | cons c cs ih =>
    by_cases hc : c = a
    · subst hc
      simp [replaceAll, isPrefOf, ih]
    · have hpref : isPrefOf [a] (c :: cs) = false := by
        simp [isPrefOf]
        omega
      rw [replaceAll, if_neg (by simp [hpref]), ih]
      simp only [List.map_cons, if_neg hc]

/-- C7.  `generateDocID` equals the claim's description: choose the
canonical URL when it is nonempty after trimming (else the URL), strip
`http://` and `https://`, rewrite `/ ? & = # <space> :` to `_`, drop the
characters outside `[A-Za-z0-9_.-]` and truncate to 100 characters — a
deterministic function of the two URLs. -/
theorem claim_C7_doc_id (urlStr canonicalStr : List Nat) :
    generateDocID urlStr canonicalStr = docIDSpec urlStr canonicalStr := by
  have sanitize_eq : ∀ raw : List Nat,
      sanitizeID raw =
        (((replaceAll [104, 116, 116, 112, 115, 58, 47, 47] []
            (replaceAll [104, 116, 116, 112, 58, 47, 47] [] raw)).map
          (fun c => if c ∈ [47, 63, 38, 61, 35, 32, 58] then 95 else c)).filter
            (fun r => (97 ≤ r && r ≤ 122) || (65 ≤ r && r ≤ 90) || (48 ≤ r && r ≤ 57) ||
              r == 95 || r == 46 || r == 45)).take 100 := by
    intro raw
    unfold sanitizeID
    dsimp only
    rw [replaceAll_single, replaceAll_single, replaceAll_single, replaceAll_single,
      replaceAll_single, replaceAll_single, replaceAll_single]
    rw [List.map_map, List.map_map, List.map_map, List.map_map, List.map_map, List.map_map]
    have hcomp :
        (((((((fun c => if c = 58 then 95 else c) ∘ (fun c => if c = 32 then 95 else c)) ∘
          (fun c => if c = 35 then 95 else c)) ∘ (fun c => if c = 61 then 95 else c)) ∘
          (fun c => if c = 38 then 95 else c)) ∘ (fun c => if c = 63 then 95 else c)) ∘
          (fun c => if c = 47 then 95 else c)) =
        (fun c => if c ∈ [47, 63, 38, 61, 35, 32, 58] then 95 else c) := by
      funext c
      simp only [Function.comp_apply]
      by_cases h47 : c = 47 <;> by_cases h63 : c = 63 <;> by_cases h38 : c = 38 <;>
        by_cases h61 : c = 61 <;> by_cases h35 : c = 35 <;> by_cases h32 : c = 32 <;>
        by_cases h58 : c = 58 <;>
        simp_all
    rw [hcomp]
    by_cases hlen :
        (((replaceAll [104, 116, 116, 112, 115, 58, 47, 47] []
            (replaceAll [104, 116, 116, 112, 58, 47, 47] [] raw)).map
          (fun c => if c ∈ [47, 63, 38, 61, 35, 32, 58] then 95 else c)).filter
            (fun r => (97 ≤ r && r ≤ 122) || (65 ≤ r && r ≤ 90) || (48 ≤ r && r ≤ 57) ||
              r == 95 || r == 46 || r == 45)).length > 100
    · rw [if_pos hlen]
    · rw [if_neg hlen]
      rw [List.take_of_length_le (by omega)]
  unfold generateDocID docIDSpec
  by_cases hcan : trimSpace canonicalStr ≠ []
  · rw [if_pos hcan, if_pos hcan, sanitize_eq canonicalStr]
  · rw [if_neg hcan, if_neg hcan, sanitize_eq urlStr]

/-! ### Spam detector: claim C3 -/

theorem range_map_getD {α β : Type} (xs : List α) (F : α → β) (d : α) :
    (List.range xs.length).map (fun i => F (xs.getD i d)) = xs.map F := by
  induction xs with
  | nil => simp
  | cons x t ih =>
    rw [List.length_cons, List.range_succ_eq_map, List.map_cons, List.map_map]
    have hfun : ∀ i ∈ List.range t.length,
        ((fun i => F ((x :: t).getD i d)) ∘ Nat.succ) i = (fun i => F (t.getD i d)) i := by
      intro i _
      simp [List.getD]
    rw [List.map_congr_left hfun, ih]
    simp [List.getD]

theorem sum_filter_map_eq (l : List Nat) (P : Nat → Bool) (w : Nat → Nat) :
    (((l.filter P).map w).sum : Nat) = (l.map (fun i => if P i then w i else 0)).sum := by
  induction l with
  | nil => rfl
  | cons x t ih =>
    by_cases h : P x = true
    · simp [List.filter_cons, h, ih]
    · simp only [Bool.not_eq_true] at h
      simp [List.filter_cons, h, ih]

theorem containsSeq_iff_drop (pat : List Nat) :
    ∀ s : List Nat, containsSeq s pat = true ↔
      ∃ k, k ≤ s.length ∧ isPrefOf pat (s.drop k) = true := by
  intro s
  induction s with
  | nil =>
    constructor
    · intro h
      exact ⟨0, by omega, h⟩
    · rintro ⟨k, hk, hp⟩
      simpa [List.drop_nil] using hp
  | cons c cs ih =>
    simp only [containsSeq, Bool.or_eq_true]
    constructor
    · rintro (h | h)
      · exact ⟨0, by omega, h⟩
      · obtain ⟨k, hk, hp⟩ := ih.mp h
        exact ⟨k + 1, by simpa using Nat.succ_le_succ hk, by simpa using hp⟩
    · rintro ⟨k, hk, hp⟩
      match k with
      | 0 => exact Or.inl (by simpa using hp)
      | k + 1 =>
        refine Or.inr (ih.mpr ⟨k, ?_, by simpa using hp⟩)
        simpa using hk

theorem countOcc_pos_iff (pat s : List Nat) :
    0 < countOcc pat s ↔ ∃ k, k ≤ s.length ∧ isPrefOf pat (s.drop k) = true := by
  unfold countOcc
  rw [← List.countP_eq_length_filter, List.countP_pos_iff]
  constructor
  · rintro ⟨k, hk, hp⟩
    exact ⟨k, by simpa [Nat.lt_succ_iff] using List.mem_range.mp hk, hp⟩
  · rintro ⟨k, hk, hp⟩
    exact ⟨k, List.mem_range.mpr (by omega), hp⟩

theorem containsSeq_iff_countOcc (pat s : List Nat) :
    containsSeq s pat = true ↔ 0 < countOcc pat s := by
  rw [containsSeq_iff_drop, countOcc_pos_iff]

/-- C3 counterexample.  Phrases `["spam"]` with default weights and
block threshold 3, text `"spam spam"`: the claim's
sum-over-all-occurrences scoring gives 2, `DetectSpam` gives 1 because
the matcher reports each configured phrase at most once. -/
theorem claim_C3_counterexample :
    (NewSpamDetector [[115, 112, 97, 109]] (fun _ => none) 3).DetectSpam
        [115, 112, 97, 109, 32, 115, 112, 97, 109] ≠
      (NewSpamDetector [[115, 112, 97, 109]] (fun _ => none) 3).DetectSpamAllOccurrences
        [115, 112, 97, 109, 32, 115, 112, 97, 109] := by
  decide

/-- C3 as amended.  For a detector whose configured phrases are all
nonempty, `DetectSpam` returns (0, false) on empty input; otherwise it
lowercases the text, adds each configured phrase's weight at most once —
when the phrase occurs at all — instead of once per occurrence, rescales
the sum as `score * 5000 / length` (integer truncation, character count)
when the text exceeds 5000 characters and at least one phrase matched,
and reports high spam exactly when the score reaches the block
threshold. -/
theorem DetectSpam_score_core (sd : SpamDetector) (text : List Nat)
    (hne : ∀ p ∈ sd.spamPhrases, p ≠ []) (htext : ¬ text = []) :
    (sd.DetectSpam text).Score = (sd.DetectSpamOncePerPhrase text).Score := by
  unfold SpamDetector.DetectSpam SpamDetector.DetectSpamOncePerPhrase
  rw [if_neg htext, if_neg htext]
  dsimp only
  congr 1
  have hgetD : ∀ i, i < sd.spamPhrases.length →
      (sd.spamPhrases.map toLowerStr).getD i [] = toLowerStr (sd.spamPhrases.getD i []) := by
    intro i hilt
    simp [List.getD_eq_getElem?_getD, List.getElem?_map, List.getElem?_eq_getElem hilt]
  have hmemD : ∀ i, i < sd.spamPhrases.length → sd.spamPhrases.getD i [] ∈ sd.spamPhrases := by
    intro i hilt
    rw [List.getD_eq_getElem?_getD, List.getElem?_eq_getElem hilt]
    exact List.getElem_mem hilt
  have hbase :
      ((acMatch (sd.spamPhrases.map toLowerStr) (toLowerStr text)).map
        (fun hit => sd.phraseScores (sd.spamPhrases.getD hit []))).sum =
      (sd.spamPhrases.map (fun phrase =>
        min (countOcc (toLowerStr phrase) (toLowerStr text)) 1 * sd.phraseScores phrase)).sum := by
    unfold acMatch
    rw [List.length_map, sum_filter_map_eq]
    have hptw : ∀ i ∈ List.range sd.spamPhrases.length,
        (fun i => if (!((sd.spamPhrases.map toLowerStr).getD i []).isEmpty &&
            containsSeq (toLowerStr text) ((sd.spamPhrases.map toLowerStr).getD i []))
          then sd.phraseScores (sd.spamPhrases.getD i []) else 0) i =
        (fun i => min (countOcc (toLowerStr (sd.spamPhrases.getD i [])) (toLowerStr text)) 1 *
          sd.phraseScores (sd.spamPhrases.getD i [])) i := by
      intro i hi
      have hilt : i < sd.spamPhrases.length := List.mem_range.mp hi
      dsimp only
      rw [hgetD i hilt]
      have hnonempty : (toLowerStr (sd.spamPhrases.getD i [])).isEmpty = false := by
        have := hne _ (hmemD i hilt)
        rcases hx : sd.spamPhrases.getD i [] with _ | ⟨c, cs⟩
        · exact absurd hx this
        · simp [toLowerStr]
      cases hocc : containsSeq (toLowerStr text) (toLowerStr (sd.spamPhrases.getD i [])) with
      | false =>
        have hc : countOcc (toLowerStr (sd.spamPhrases.getD i [])) (toLowerStr text) = 0 := by
          rcases Nat.eq_zero_or_pos (countOcc (toLowerStr (sd.spamPhrases.getD i [])) (toLowerStr text)) with h0 | hpos
          · exact h0
          · rw [(containsSeq_iff_countOcc _ _).mpr hpos] at hocc
            cases hocc
        rw [hnonempty, hc]
        simp
      | true =>
        have hc := (containsSeq_iff_countOcc _ _).mp hocc
        have hmin : min (countOcc (toLowerStr (sd.spamPhrases.getD i [])) (toLowerStr text)) 1 = 1 := by
          omega
        rw [hnonempty, hmin]
        simp
    rw [List.map_congr_left hptw]
    rw [range_map_getD sd.spamPhrases
      (fun phrase => min (countOcc (toLowerStr phrase) (toLowerStr text)) 1 * sd.phraseScores phrase) []]
  have hany :
      0 < (acMatch (sd.spamPhrases.map toLowerStr) (toLowerStr text)).length ↔
      (sd.spamPhrases.any (fun phrase =>
        decide (0 < countOcc (toLowerStr phrase) (toLowerStr text)))) = true := by
    unfold acMatch
    rw [← List.countP_eq_length_filter, List.countP_pos_iff, List.any_eq_true]
    constructor
    · rintro ⟨i, hi, hp⟩
      rw [List.length_map] at hi
      have hilt : i < sd.spamPhrases.length := List.mem_range.mp hi
      rw [hgetD i hilt] at hp
      simp only [Bool.and_eq_true] at hp
      refine ⟨sd.spamPhrases.getD i [], hmemD i hilt, ?_⟩
      simpa using (containsSeq_iff_countOcc _ _).mp hp.2
    · rintro ⟨phrase, hmem, hpos⟩
      obtain ⟨i, hilt, hget⟩ := List.getElem_of_mem hmem
      refine ⟨i, by rw [List.length_map]; exact List.mem_range.mpr hilt, ?_⟩
      have hgetD2 : (sd.spamPhrases.map toLowerStr).getD i [] = toLowerStr phrase := by
        simp [List.getD_eq_getElem?_getD, List.getElem?_map, List.getElem?_eq_getElem hilt, hget]
      rw [hgetD2]
      simp only [decide_eq_true_eq] at hpos
      have hocc := (containsSeq_iff_countOcc (toLowerStr phrase) (toLowerStr text)).mpr hpos
      have hnonempty : (toLowerStr phrase).isEmpty = false := by
        have := hne _ hmem
        rcases hx : phrase with _ | ⟨c, cs⟩
        · exact absurd hx this
        · simp [toLowerStr]
      rw [hnonempty, hocc]
      rfl
  have htlen : text.length > 0 := by
    cases text with
    | nil => exact absurd rfl htext
    | cons a t => simp
  rw [hbase]
  by_cases hm : 0 < (acMatch (sd.spamPhrases.map toLowerStr) (toLowerStr text)).length
  · rw [if_pos ⟨htlen, hm⟩]
    by_cases h5 : text.length > 5000
    · rw [if_pos h5, if_pos ⟨h5, hany.mp hm⟩]
    · rw [if_neg h5, if_neg (fun hc => h5 hc.1)]
  · rw [if_neg (fun hc => hm hc.2), if_neg (fun hc => hm (hany.mpr hc.2))]

/-- C3 as amended.  For a detector whose configured phrases are all
nonempty, `DetectSpam` returns (0, false) on empty input; otherwise it
lowercases the text, adds each configured phrase's weight at most once —
when the phrase occurs at all — instead of once per occurrence, rescales
the sum as `score * 5000 / length` (integer truncation, character count)
when the text exceeds 5000 characters and at least one phrase matched,
and reports high spam exactly when the score reaches the block
threshold. -/
theorem claim_C3_spam_scoring (sd : SpamDetector) (text : List Nat)
    (hne : ∀ p ∈ sd.spamPhrases, p ≠ []) :
    sd.DetectSpam text = sd.DetectSpamOncePerPhrase text := by
  by_cases htext : text = []
  · unfold SpamDetector.DetectSpam SpamDetector.DetectSpamOncePerPhrase
    rw [if_pos htext, if_pos htext]
  · have hS := DetectSpam_score_core sd text hne htext
    have hH : (sd.DetectSpam text).IsHighSpam = (sd.DetectSpamOncePerPhrase text).IsHighSpam := by
      have h1 : (sd.DetectSpam text).IsHighSpam =
          decide (((sd.DetectSpam text).Score) ≥ sd.blockThreshold) := by
        unfold SpamDetector.DetectSpam
        rw [if_neg htext]
      have h2 : (sd.DetectSpamOncePerPhrase text).IsHighSpam =
          decide (((sd.DetectSpamOncePerPhrase text).Score) ≥ sd.blockThreshold) := by
        unfold SpamDetector.DetectSpamOncePerPhrase
        rw [if_neg htext]
      rw [h1, h2, hS]
    calc sd.DetectSpam text
        = ⟨(sd.DetectSpam text).Score, (sd.DetectSpam text).IsHighSpam⟩ := rfl
      _ = ⟨(sd.DetectSpamOncePerPhrase text).Score, (sd.DetectSpamOncePerPhrase text).IsHighSpam⟩ := by
          rw [hS, hH]
      _ = sd.DetectSpamOncePerPhrase text := rfl

/-- Witness for C3 (amended): the single nonempty phrase "spam" against
the text "spam x". -/
theorem claim_C3_witness :
    (∀ p ∈ (NewSpamDetector [[115, 112, 97, 109]] (fun _ => none) 3).spamPhrases, p ≠ []) ∧
    (NewSpamDetector [[115, 112, 97, 109]] (fun _ => none) 3).DetectSpam [115, 112, 97, 109, 32, 120] =
      (NewSpamDetector [[115, 112, 97, 109]] (fun _ => none) 3).DetectSpamOncePerPhrase
        [115, 112, 97, 109, 32, 120] :=
  ⟨by decide,
    claim_C3_spam_scoring (NewSpamDetector [[115, 112, 97, 109]] (fun _ => none) 3)
      [115, 112, 97, 109, 32, 120] (by decide)⟩

/-! ### Pipeline: claims C4 and C10 -/

theorem addIf_nonneg (b : Prop) [Decidable b] (c s : Int) (hs : 0 ≤ s) (hc : 0 ≤ c) :
    0 ≤ addIf b c s := by
  unfold addIf
  split <;> omega

theorem loadTimeStep_nonneg (t s : Int) (hs : 0 ≤ s) :
    0 ≤ (if t < 1000 then s + 10 else if t < 2000 then s + 5 else if t < 3000 then s + 2 else s) := by
  split_ifs <;> omega

theorem cap100_bounds (e : Int) (he : 0 ≤ e) :
    0 ≤ (if e > 100 then (100 : Int) else e) ∧ (if e > 100 then (100 : Int) else e) ≤ 100 := by
  split <;> omega

theorem calculateQualityScore_bounds (doc : Document) :
    0 ≤ calculateQualityScore doc ∧ calculateQualityScore doc ≤ 100 := by
  unfold calculateQualityScore
  apply cap100_bounds
  apply loadTimeStep_nonneg
  apply addIf_nonneg _ _ _ _ (by norm_num)
  apply addIf_nonneg _ _ _ _ (by norm_num)
  apply addIf_nonneg _ _ _ _ (by norm_num)
  apply addIf_nonneg _ _ _ _ (by norm_num)
  apply addIf_nonneg _ _ _ _ (by norm_num)
  apply addIf_nonneg _ _ _ _ (by norm_num)
  apply addIf_nonneg _ _ _ _ (by norm_num)
  apply addIf_nonneg _ _ _ _ (by norm_num)
  apply addIf_nonneg _ _ _ _ (by norm_num)
  norm_num

theorem enrich_nlpError_frame (pageData : PageData) (doc : Document) (now : Nat) :
    Enrich pageData doc NlpOutcome.nlpError now = doc := by
  unfold Enrich
  split <;> rfl

theorem enrich_spamScore (pageData : PageData) (doc : Document) (nlp : NlpOutcome) (now : Nat) :
    (Enrich pageData doc nlp now).SpamScore = doc.SpamScore := by
  unfold Enrich
  split
  · rfl
  · cases nlp with
    | nlpError => rfl
    | nlpOk entities keyphrases =>
      dsimp only
      split <;> rfl

theorem enrich_quality_bounds (pageData : PageData) (doc : Document) (nlp : NlpOutcome) (now : Nat)
    (hdoc : 0 ≤ doc.QualityScore ∧ doc.QualityScore ≤ 100) :
    0 ≤ (Enrich pageData doc nlp now).QualityScore ∧
      (Enrich pageData doc nlp now).QualityScore ≤ 100 := by
  unfold Enrich
  split
  · exact hdoc
  · cases nlp with
    | nlpError => exact hdoc
    | nlpOk entities keyphrases =>
      dsimp only
      split
      · exact calculateQualityScore_bounds _
      · exact calculateQualityScore_bounds _

theorem penalty_bounds (q s : Int) (h0 : 0 ≤ q) (h100 : q ≤ 100) :
    0 ≤ (if s > 0 then (if q > s * 2 then q - s * 2 else 0) else q) ∧
      (if s > 0 then (if q > s * 2 then q - s * 2 else 0) else q) ≤ 100 := by
  split_ifs <;> omega

theorem cleanAndNormalize_doc_fields (pageData : PageData) (doc : Document)
    (pd2 : PageData) (d2 : Document)
    (h : cleanAndNormalize pageData doc = some (pd2, d2)) :
    d2 = { doc with VisibleText := basicHTMLCleanup pageData.VisibleText,
                    URL := (normalizeURL pageData.URL).getD [] } ∧
    pd2.VisibleText = pageData.VisibleText := by
  cases hu : normalizeURL pageData.URL with
  | none =>
    unfold cleanAndNormalize at h
    rw [hu] at h
    cases h
  | some u =>
    cases hcanon : normalizeURL pageData.CanonicalURL with
    | none =>
      unfold cleanAndNormalize at h
      rw [hu, hcanon] at h
      dsimp only at h
      rw [Option.some.injEq, Prod.mk.injEq] at h
      obtain ⟨hpd, hd⟩ := h
      constructor
      · rw [← hd]
        rfl
      · rw [← hpd]
    | some canonical =>
      unfold cleanAndNormalize at h
      rw [hu, hcanon] at h
      dsimp only at h
      rw [Option.some.injEq, Prod.mk.injEq] at h
      obtain ⟨hpd, hd⟩ := h
      constructor
      · rw [← hd]
        rfl
      · rw [← hpd]

theorem detectLanguage_visibleText (pageData : PageData) (lang : LangOutcome) (pd2 : PageData)
    (h : detectLanguage pageData lang = some pd2) :
    pd2.VisibleText = pageData.VisibleText ∧
    pd2.URL = pageData.URL ∧ pd2.CanonicalURL = pageData.CanonicalURL := by
  unfold detectLanguage at h
  cases lang with
  | langOk code =>
    have := (Option.some.injEq _ _).mp h
    rw [← this]
    exact ⟨rfl, rfl, rfl⟩
  | notEnglish code => cases h
  | langFailed =>
    have := (Option.some.injEq _ _).mp h
    rw [← this]
    exact ⟨rfl, rfl, rfl⟩

/-- C4.  Every document the pipeline emits (a successful `Process` run
starting from the zero document the worker allocates) has
`QualityScore` in [0, 100]: the additive structural score is capped at
100 and the `2 × SpamScore` penalty is clamped at 0. -/
theorem claim_C4_quality_in_range (sd : SpamDetector) (env : ProcEnv) (pageData : PageData)
    (doc' : Document) (h : Process sd env pageData zeroDocument = Except.ok doc') :
    0 ≤ doc'.QualityScore ∧ doc'.QualityScore ≤ 100 := by
  unfold Process at h
  cases hcn : cleanAndNormalize pageData zeroDocument with
  | none => rw [hcn] at h; cases h
  | some pr =>
    obtain ⟨pd1, doc1⟩ := pr
    rw [hcn] at h
    dsimp only at h
    by_cases hdup : env.isDup
    · rw [if_pos hdup] at h; cases h
    · rw [if_neg hdup] at h
      cases hdl : detectLanguage pd1 env.lang with
      | none => rw [hdl] at h; cases h
      | some pd2 =>
        rw [hdl] at h
        dsimp only at h
        by_cases hspam : (sd.DetectSpam pd2.VisibleText).IsHighSpam = true
        · rw [if_pos hspam] at h; cases h
        · rw [if_neg hspam] at h
          have hq1 : doc1.QualityScore = 0 := by
            have := (cleanAndNormalize_doc_fields pageData zeroDocument pd1 doc1 hcn).1
            rw [this]
            rfl
          have hdocS : (0 : Int) ≤ ({ doc1 with SpamScore := (sd.DetectSpam pd2.VisibleText).Score } : Document).QualityScore ∧
              ({ doc1 with SpamScore := (sd.DetectSpam pd2.VisibleText).Score } : Document).QualityScore ≤ 100 := by
            dsimp only
            omega
          have henr := enrich_quality_bounds pd2
            { doc1 with SpamScore := (sd.DetectSpam pd2.VisibleText).Score } env.nlp env.now hdocS
          set doc3 := Enrich pd2 { doc1 with SpamScore := (sd.DetectSpam pd2.VisibleText).Score }
            env.nlp env.now with hdoc3
          by_cases hpen : doc3.SpamScore > 0
          · rw [if_pos hpen] at h
            by_cases hgt : doc3.QualityScore > doc3.SpamScore * 2
            · rw [if_pos hgt] at h
              have hd : doc' = { doc3 with QualityScore := doc3.QualityScore - doc3.SpamScore * 2 } :=
                ((Except.ok.injEq _ _).mp h).symm
              rw [hd]
              dsimp only
              omega
            · rw [if_neg hgt] at h
              have hd : doc' = { doc3 with QualityScore := 0 } :=
                ((Except.ok.injEq _ _).mp h).symm
              rw [hd]
              dsimp only
              omega
          · rw [if_neg hpen] at h
            have hd : doc' = doc3 := ((Except.ok.injEq _ _).mp h).symm
            rw [hd]
            exact henr

/-- Witness for C4: a full pipeline run on `pageA`. -/
theorem claim_C4_witness :
    Process sdEmpty envOkRun pageA zeroDocument = Except.ok docOutA ∧
    (0 ≤ docOutA.QualityScore ∧ docOutA.QualityScore ≤ 100) :=
  ⟨by rfl, claim_C4_quality_in_range sdEmpty envOkRun pageA docOutA (by rfl)⟩

/-- C10.  When the NLP batch call fails inside `Enrich`, `Enrich`
returns success without writing any document field, so a successful
`Process` run emits a document that differs from the zero document only
in the three fields earlier stages set: the normalized URL, the cleaned
visible text, and the spam score. -/
theorem claim_C10_nlp_error_frame (sd : SpamDetector) (env : ProcEnv) (pageData : PageData)
    (u : List Nat) (doc' : Document)
    (hnlp : env.nlp = NlpOutcome.nlpError)
    (hurl : normalizeURL pageData.URL = some u)
    (h : Process sd env pageData zeroDocument = Except.ok doc') :
    doc' = { zeroDocument with
      URL := u,
      VisibleText := basicHTMLCleanup pageData.VisibleText,
      SpamScore := (sd.DetectSpam pageData.VisibleText).Score } := by
  unfold Process at h
  cases hcn : cleanAndNormalize pageData zeroDocument with
  | none => rw [hcn] at h; cases h
  | some pr =>
    obtain ⟨pd1, doc1⟩ := pr
    rw [hcn] at h
    dsimp only at h
    obtain ⟨hd1, hv1⟩ := cleanAndNormalize_doc_fields pageData zeroDocument pd1 doc1 hcn
    by_cases hdup : env.isDup
    · rw [if_pos hdup] at h; cases h
    · rw [if_neg hdup] at h
      cases hdl : detectLanguage pd1 env.lang with
      | none => rw [hdl] at h; cases h
      | some pd2 =>
        rw [hdl] at h
        dsimp only at h
        obtain ⟨hv2, _, _⟩ := detectLanguage_visibleText pd1 env.lang pd2 hdl
        have hvt : pd2.VisibleText = pageData.VisibleText := by rw [hv2, hv1]
        by_cases hspam : (sd.DetectSpam pd2.VisibleText).IsHighSpam = true
        · rw [if_pos hspam] at h; cases h
        · rw [if_neg hspam] at h
          rw [hnlp] at h
          rw [enrich_nlpError_frame] at h
          rw [hvt] at h
          rw [hd1] at h
          rw [hurl] at h
          dsimp only at h
          set s : Int := (sd.DetectSpam pageData.VisibleText).Score with hs
          have hsnn : 0 ≤ s := by
            rw [hs]
            unfold SpamDetector.DetectSpam
            split
            · decide
            · exact Int.natCast_nonneg _
          by_cases hpen : s > 0
          · rw [if_pos hpen] at h
            rw [if_neg (by simp only [zeroDocument]; omega)] at h
            have hd : doc' = _ := ((Except.ok.injEq _ _).mp h).symm
            rw [hd]
            rfl
          · rw [if_neg hpen] at h
            have hd : doc' = _ := ((Except.ok.injEq _ _).mp h).symm
            rw [hd]
            rfl

/-- Witness for C10: the NLP-error run on `pageC`. -/
theorem claim_C10_witness :
    envNlpErr.nlp = NlpOutcome.nlpError ∧
    normalizeURL pageC.URL = some [104, 116, 116, 112, 58, 47, 47, 97] ∧
    Process sdEmpty envNlpErr pageC zeroDocument = Except.ok docOutC ∧
    docOutC = { zeroDocument with
      URL := [104, 116, 116, 112, 58, 47, 47, 97],
      VisibleText := basicHTMLCleanup pageC.VisibleText,
      SpamScore := (sdEmpty.DetectSpam pageC.VisibleText).Score } :=
  ⟨rfl, by decide, by rfl,
    claim_C10_nlp_error_frame sdEmpty envNlpErr pageC
      [104, 116, 116, 112, 58, 47, 47, 97] docOutC rfl (by decide) (by rfl)⟩

/-! ### NLP batch processor delivery discipline: claim C1 -/

theorem nodup_filter_length (i : Nat) :
    ∀ batch : List Nat, batch.Nodup →
      (batch.filter (fun j => j == i)).length = if i ∈ batch then 1 else 0 := by
  intro batch
  induction batch with
  | nil => simp
  | cons b bs ih =>
    intro hnd
    obtain ⟨hnotin, hnd2⟩ := List.nodup_cons.mp hnd
    rw [List.filter_cons]
    by_cases hbi : b = i
    · rw [if_pos (by simp [hbi])]
      have hinotbs : i ∉ bs := hbi ▸ hnotin
      rw [List.length_cons, ih hnd2, if_neg hinotbs, if_pos (by simp [hbi])]
    · rw [if_neg (by simp [hbi]), ih hnd2]
      have hiff : (i ∈ b :: bs) ↔ i ∈ bs := by simp [Ne.symm hbi]
      rw [if_congr hiff rfl rfl]

theorem count_map_const (i : Nat) (k : RKind) (batch : List Nat) (hnd : batch.Nodup) :
    ((batch.map (fun j => (j, k))).filter (fun p => p.1 == i)).length =
      if i ∈ batch then 1 else 0 := by
  rw [List.filter_map, List.length_map]
  exact nodup_filter_length i batch hnd

theorem count_zip_fn (i : Nat) (f : Bool → RKind) :
    ∀ (batch : List Nat) (rs : List Bool), rs.length = batch.length → batch.Nodup →
      (((batch.zip rs).map (fun p => (p.1, f p.2))).filter (fun p => p.1 == i)).length =
        if i ∈ batch then 1 else 0 := by
  intro batch
  induction batch with
  | nil => simp
  | cons b bs ih =>
    intro rs hlen hnd
    obtain ⟨hnotin, hnd2⟩ := List.nodup_cons.mp hnd
    cases rs with
    | nil => simp at hlen
    | cons r rt =>
      have hlen2 : rt.length = bs.length := by simpa using hlen
      rw [List.zip_cons_cons, List.map_cons, List.filter_cons]
      by_cases hbi : b = i
      · rw [if_pos (by simp [hbi])]
        have hinotbs : i ∉ bs := hbi ▸ hnotin
        rw [List.length_cons, ih rt hlen2 hnd2, if_neg hinotbs, if_pos (by simp [hbi])]
      · rw [if_neg (by simp [hbi]), ih rt hlen2 hnd2]
        have hiff : (i ∈ b :: bs) ↔ i ∈ bs := by simp [Ne.symm hbi]
        rw [if_congr hiff rfl rfl]

theorem deliveries_count (batch : List Nat) (o : BatchOutcome) (i : Nat) (hnd : batch.Nodup) :
    ((processBatchDeliveries batch o).filter (fun p => p.1 == i)).length =
      if i ∈ batch then 1 else 0 := by
  cases o with
  | circuitOpen => exact count_map_const i RKind.circuitOpenErr batch hnd
  | rateLimited => exact count_map_const i RKind.otherErr batch hnd
  | marshalError => exact count_map_const i RKind.otherErr batch hnd
  | execError => exact count_map_const i RKind.otherErr batch hnd
  | badFormat => exact count_map_const i RKind.otherErr batch hnd
  | results rs =>
    simp only [processBatchDeliveries]
    by_cases hlen : rs.length ≠ batch.length
    · rw [if_pos hlen]
      exact count_map_const i RKind.otherErr batch hnd
    · rw [if_neg hlen]
      push_neg at hlen
      exact count_zip_fn i (fun b => if b then RKind.ok else RKind.otherErr) batch rs hlen hnd

theorem bpSubmitted_append (tr : List BPStep) (e : BPStep) :
    bpSubmitted (tr ++ [e]) =
      bpSubmitted tr ++ (match e with | .submit i => [i] | _ => []) := by
  unfold bpSubmitted
  rw [List.filterMap_append]
  cases e <;> rfl

theorem bp_invariant (tr : List BPStep) (hnd : (bpSubmitted tr).Nodup) :
    (bpRun tr).pending.Nodup ∧
    ∀ i, bpCount (bpRun tr) i + (if i ∈ (bpRun tr).pending then 1 else 0) =
      (if i ∈ bpSubmitted tr then 1 else 0) := by
  induction tr using List.reverseRecOn with
  | nil => constructor <;> simp [bpRun, bpInit, bpCount, bpSubmitted]
  | append_singleton tr e ih =>
    have hsub := bpSubmitted_append tr e
    have hnd0 : (bpSubmitted tr).Nodup := by
      rw [hsub] at hnd
      exact (List.nodup_append.mp hnd).1
    obtain ⟨ihnd, ihcnt⟩ := ih hnd0
    have hpend_sub : ∀ i, i ∈ (bpRun tr).pending → i ∈ bpSubmitted tr := by
      intro i hi
      have hcnt := ihcnt i
      rw [if_pos hi] at hcnt
      by_cases hm : i ∈ bpSubmitted tr
      · exact hm
      · rw [if_neg hm] at hcnt
        omega
    have hrun : bpRun (tr ++ [e]) = bpStep (bpRun tr) e := by
      unfold bpRun
      rw [List.foldl_append]
      rfl
    cases e with
    | submit j =>
      have hsub2 : bpSubmitted (tr ++ [BPStep.submit j]) = bpSubmitted tr ++ [j] := by
        rw [bpSubmitted_append]
      have hjnotin : j ∉ bpSubmitted tr := by
        rw [hsub2] at hnd
        have hdisj := List.disjoint_of_nodup_append hnd
        intro hj
        exact hdisj hj (by simp)
      have hjnotpend : j ∉ (bpRun tr).pending := fun hj => hjnotin (hpend_sub j hj)
      have hstep : bpStep (bpRun tr) (BPStep.submit j) =
          { bpRun tr with pending := (bpRun tr).pending ++ [j] } := rfl
      rw [hrun, hstep, hsub2]
      constructor
      · dsimp only
        rw [List.nodup_append]
        refine ⟨ihnd, List.nodup_singleton j, ?_⟩
        intro a ha hb
        simp only [List.mem_singleton] at hb
        subst hb
        exact hjnotpend ha
      · intro i
        have hcnt := ihcnt i
        have hcount_eq : bpCount { bpRun tr with pending := (bpRun tr).pending ++ [j] } i =
            bpCount (bpRun tr) i := rfl
        rw [hcount_eq]
        by_cases hij : i = j
        · subst hij
          have hp1 : i ∈ (bpRun tr).pending ++ [i] := by simp
          have hp2 : i ∈ bpSubmitted tr ++ [i] := by simp
          rw [if_pos hp1, if_pos hp2]
          have hz : bpCount (bpRun tr) i = 0 := by
            rw [if_neg hjnotpend, if_neg hjnotin] at hcnt
            omega
          omega
        · have hiff1 : (i ∈ (bpRun tr).pending ++ [j]) ↔ i ∈ (bpRun tr).pending := by
            simp [hij]
          have hiff2 : (i ∈ bpSubmitted tr ++ [j]) ↔ i ∈ bpSubmitted tr := by
            simp [hij]
          rw [if_congr hiff1 rfl rfl, if_congr hiff2 rfl rfl]
          exact hcnt
    | stop =>
      have hsub2 : bpSubmitted (tr ++ [BPStep.stop]) = bpSubmitted tr := by
        rw [bpSubmitted_append]
        simp
      have hstep : bpStep (bpRun tr) BPStep.stop = { bpRun tr with stopped := true } := rfl
      rw [hrun, hstep, hsub2]
      refine ⟨ihnd, ?_⟩
      intro i
      exact ihcnt i
    | wake o =>
      have hsub2 : bpSubmitted (tr ++ [BPStep.wake o]) = bpSubmitted tr := by
        rw [bpSubmitted_append]
        simp
      rw [hrun, hsub2]
      cases hstop : (bpRun tr).stopped with
      | true =>
        have hstep : bpStep (bpRun tr) (BPStep.wake o) = bpRun tr := by
          simp [bpStep, hstop]
        rw [hstep]
        exact ⟨ihnd, ihcnt⟩
      | false =>
        by_cases hemp : (bpRun tr).pending = []
        · have hstep : bpStep (bpRun tr) (BPStep.wake o) = bpRun tr := by
            simp [bpStep, hstop, hemp]
          rw [hstep]
          exact ⟨ihnd, ihcnt⟩
        · have hstep : bpStep (bpRun tr) (BPStep.wake o) =
              { bpRun tr with
                pending := ([] : List Nat),
                delivered := (bpRun tr).delivered ++ processBatchDeliveries (bpRun tr).pending o } := by
            simp [bpStep, hstop, hemp]
          rw [hstep]
          refine ⟨List.nodup_nil, ?_⟩
          intro i
          have hbase := ihcnt i
          have hcnt2 : bpCount
              { bpRun tr with
                pending := ([] : List Nat),
                delivered := (bpRun tr).delivered ++ processBatchDeliveries (bpRun tr).pending o } i =
              bpCount (bpRun tr) i +
                ((processBatchDeliveries (bpRun tr).pending o).filter (fun p => p.1 == i)).length := by
            unfold bpCount
            simp [List.filter_append]
          rw [hcnt2, deliveries_count (bpRun tr).pending o i ihnd]
          have hnotnil : ¬ (i ∈ ([] : List Nat)) := List.not_mem_nil i
          rw [if_neg hnotnil]
          by_cases hip : i ∈ (bpRun tr).pending <;>
            by_cases his : i ∈ bpSubmitted tr <;>
            simp only [hip, his, if_true, if_false] at hbase ⊢ <;>
            omega

/-- C1 counterexample.  The trace "one item is submitted, then the
batching goroutine wakes on the closed `done` channel and returns":
the submitted item's mailbox receives zero results, not one. -/
theorem claim_C1_counterexample :
    bpSubmitted [BPStep.submit 0, BPStep.stop] = [0] ∧
    bpCount (bpRun [BPStep.submit 0, BPStep.stop]) 0 = 0 := by
  constructor
  · rfl
  · rfl

/-- C1 as amended.  In every serialized execution whose submitted items
are distinct: an item that is part of a batch the loop processes
receives exactly one result (success, error, or circuit-open — also when
the breaker is open), an item still pending in the current batch when
the loop takes the `done` branch receives none (its caller is released
by its context instead), and no item receives a second result. -/
theorem claim_C1_one_result_unless_stopped (tr : List BPStep)
    (hnd : (bpSubmitted tr).Nodup) (i : Nat) :
    bpCount (bpRun tr) i + (if i ∈ (bpRun tr).pending then 1 else 0) =
      (if i ∈ bpSubmitted tr then 1 else 0) :=
  (bp_invariant tr hnd).2 i

/-- Witness for C1 (amended) at item 0 of `trW`. -/
theorem claim_C1_witness :
    (bpSubmitted trW).Nodup ∧
    (bpCount (bpRun trW) 0 + (if 0 ∈ (bpRun trW).pending then 1 else 0) =
      (if 0 ∈ bpSubmitted trW then 1 else 0)) :=
  ⟨by decide, claim_C1_one_result_unless_stopped trW (by decide) 0⟩

/-! ### URL normalization idempotence: claim C9 -/

theorem isPrefOf_iff_append (p : List Nat) :
    ∀ l, isPrefOf p l = true ↔ ∃ t, l = p ++ t := by
  induction p with
  | nil =>
    intro l
    simp [isPrefOf]
  | cons a ps ih =>
    intro l
    cases l with
    | nil =>
      simp [isPrefOf]
    | cons c cs =>
      simp only [isPrefOf, Bool.and_eq_true, beq_iff_eq]
      constructor
      · rintro ⟨hac, hp⟩
        obtain ⟨t, ht⟩ := (ih cs).mp hp
        exact ⟨t, by rw [ht, hac]; rfl⟩
      · rintro ⟨t, ht⟩
        rw [List.cons_append] at ht
        obtain ⟨h1, h2⟩ := List.cons.injEq .. ▸ ht
        exact ⟨h1.symm, (ih cs).mpr ⟨t, h2⟩⟩

theorem isPrefOf_append_self (p t : List Nat) : isPrefOf p (p ++ t) = true :=
  (isPrefOf_iff_append p (p ++ t)).mpr ⟨t, rfl⟩

theorem isPrefOf_append_ext (p l t : List Nat) (h : isPrefOf p l = true) :
    isPrefOf p (l ++ t) = true := by
  obtain ⟨s, hs⟩ := (isPrefOf_iff_append p l).mp h
  exact (isPrefOf_iff_append p (l ++ t)).mpr ⟨s ++ t, by rw [hs]; simp⟩

theorem splitSep_cons_none (c : Nat) (cs : List Nat) (h : splitSep (c :: cs) = none) :
    isPrefOf [58, 47, 47] (c :: cs) = false ∧ splitSep cs = none := by
  by_cases hp : isPrefOf [58, 47, 47] (c :: cs) = true
  · rw [splitSep, if_pos hp] at h
    cases h
  · refine ⟨by simpa using hp, ?_⟩
    rw [splitSep, if_neg hp] at h
    cases hsa : splitSep cs with
    | none => rfl
    | some pr =>
      obtain ⟨b, a⟩ := pr
      rw [hsa] at h
      cases h

theorem splitSep_decomp :
    ∀ (l a b : List Nat), splitSep l = some (a, b) → l = a ++ [58, 47, 47] ++ b := by
  intro l
  induction l with
  | nil =>
    intro a b h
    cases h
  | cons c cs ih =>
    intro a b h
    by_cases hp : isPrefOf [58, 47, 47] (c :: cs) = true
    · rw [splitSep, if_pos hp] at h
      obtain ⟨t, ht⟩ := (isPrefOf_iff_append _ _).mp hp
      rw [Option.some.injEq, Prod.mk.injEq] at h
      obtain ⟨ha, hb⟩ := h
      have hcs : cs = [47, 47] ++ t := by
        have := ht
        simp only [List.append_assoc, List.cons_append, List.nil_append] at this
        exact (List.cons.injEq .. ▸ this).2
      have hdrop : cs.drop 2 = t := by rw [hcs]; rfl
      rw [← ha, ← hb, hdrop, ht]
      simp
    · rw [splitSep, if_neg hp] at h
      cases hsa : splitSep cs with
      | none => rw [hsa] at h; cases h
      | some pr =>
        obtain ⟨b', a'⟩ := pr
        rw [hsa] at h
        rw [Option.some.injEq, Prod.mk.injEq] at h
        obtain ⟨ha, hb⟩ := h
        have := ih b' a' hsa
        rw [← ha, ← hb, this]
        simp

theorem splitSep_of_prefix_none :
    ∀ (a b : List Nat), splitSep a = none →
      splitSep (a ++ 58 :: 47 :: 47 :: b) = some (a, b) := by
  intro a
  induction a with
  | nil =>
    intro b _
    rw [List.nil_append, splitSep, if_pos (by simp [isPrefOf])]
    rfl
  | cons c a' ih =>
    intro b hn
    obtain ⟨hp, hn'⟩ := splitSep_cons_none c a' hn
    have hpref : isPrefOf [58, 47, 47] (c :: (a' ++ 58 :: 47 :: 47 :: b)) = false := by
      rcases a' with _ | ⟨x, _ | ⟨y, a3⟩⟩
      · simp [isPrefOf]
      · simp [isPrefOf]
      · simpa [isPrefOf] using hp
    rw [List.cons_append, splitSep, if_neg (by simp [hpref])]
    rw [ih b hn']

theorem splitSep_before_none :
    ∀ (l a b : List Nat), splitSep l = some (a, b) → splitSep a = none := by
  intro l
  induction l with
  | nil =>
    intro a b h
    cases h
  | cons c cs ih =>
    intro a b h
    by_cases hp : isPrefOf [58, 47, 47] (c :: cs) = true
    · rw [splitSep, if_pos hp] at h
      rw [Option.some.injEq, Prod.mk.injEq] at h
      rw [← h.1]
      rfl
    · rw [splitSep, if_neg hp] at h
      cases hsa : splitSep cs with
      | none => rw [hsa] at h; cases h
      | some pr =>
        obtain ⟨b', a'⟩ := pr
        rw [hsa] at h
        rw [Option.some.injEq, Prod.mk.injEq] at h
        obtain ⟨ha, hb⟩ := h
        rw [← ha]
        have hb'none := ih b' a' hsa
        have hdec := splitSep_decomp cs b' a' hsa
        rw [splitSep]
        rw [if_neg ?hguard]
        case hguard =>
          intro hcontr
          have : isPrefOf [58, 47, 47] (c :: cs) = true := by
            have hcb : c :: cs = (c :: b') ++ ([58, 47, 47] ++ a') := by
              rw [hdec]
              simp
            rw [hcb]
            exact isPrefOf_append_ext _ _ _ hcontr
          exact hp this
        rw [hb'none]

theorem toLowerCh_fixed_low (k : Nat) (hk : k < 65) (c : Nat) :
    (toLowerCh c = k) ↔ (c = k) := by
  unfold toLowerCh
  split
  next h =>
    simp only [Bool.and_eq_true, decide_eq_true_eq] at h
    constructor
    · intro hh
      omega
    · intro hh
      omega
  next h => exact Iff.rfl

theorem toLowerCh_beq_low (k : Nat) (hk : k < 65) (c : Nat) :
    (k == toLowerCh c) = (k == c) := by
  unfold toLowerCh
  split
  next h =>
    simp only [Bool.and_eq_true, decide_eq_true_eq] at h
    have h1 : (k == c + 32) = false := by
      simp only [beq_eq_false_iff_ne, ne_eq]
      omega
    have h2 : (k == c) = false := by
      simp only [beq_eq_false_iff_ne, ne_eq]
      omega
    rw [h1, h2]
  next h => rfl

theorem toLowerCh_beq_low_rev (k : Nat) (hk : k < 65) (c : Nat) :
    (toLowerCh c == k) = (c == k) := by
  unfold toLowerCh
  split
  next h =>
    simp only [Bool.and_eq_true, decide_eq_true_eq] at h
    have h1 : (c + 32 == k) = false := by
      simp only [beq_eq_false_iff_ne, ne_eq]
      omega
    have h2 : (c == k) = false := by
      simp only [beq_eq_false_iff_ne, ne_eq]
      omega
    rw [h1, h2]
  next h => rfl

theorem toLowerCh_idem (c : Nat) : toLowerCh (toLowerCh c) = toLowerCh c := by
  by_cases h : 65 ≤ c ∧ c ≤ 90
  · have h1 : toLowerCh c = c + 32 := by
      unfold toLowerCh
      rw [if_pos (by simp [h.1, h.2])]
    rw [h1]
    unfold toLowerCh
    rw [if_neg (by simp; omega)]
  · have h1 : toLowerCh c = c := by
      unfold toLowerCh
      rw [if_neg (by simp only [Bool.and_eq_true, decide_eq_true_eq]; exact h)]
    rw [h1, h1]

theorem toLowerStr_idem (l : List Nat) : toLowerStr (toLowerStr l) = toLowerStr l := by
  unfold toLowerStr
  rw [List.map_map]
  exact List.map_congr_left (fun c _ => toLowerCh_idem c)

theorem isSpaceCh_toLowerCh (c : Nat) : isSpaceCh (toLowerCh c) = isSpaceCh c := by
  unfold toLowerCh isSpaceCh
  split
  next h =>
    simp only [Bool.and_eq_true, decide_eq_true_eq] at h
    rw [Bool.eq_iff_iff]
    simp only [Bool.or_eq_true, Bool.and_eq_true, decide_eq_true_eq, beq_iff_eq]
    constructor <;> intro hx <;> omega
  next h => rfl

theorem isHostEnd_toLowerCh (c : Nat) : isHostEnd (toLowerCh c) = isHostEnd c := by
  unfold isHostEnd
  rw [toLowerCh_beq_low_rev 47 (by omega), toLowerCh_beq_low_rev 63 (by omega),
    toLowerCh_beq_low_rev 35 (by omega)]

theorem isPrefOf_sep_toLowerStr (l : List Nat) :
    isPrefOf [58, 47, 47] (toLowerStr l) = isPrefOf [58, 47, 47] l := by
  rcases l with _ | ⟨c0, _ | ⟨c1, _ | ⟨c2, t⟩⟩⟩
  · rfl
  · simp [toLowerStr, isPrefOf]
  · simp [toLowerStr, isPrefOf]
  · simp [toLowerStr, isPrefOf, toLowerCh_beq_low 58 (by omega), toLowerCh_beq_low 47 (by omega)]

theorem splitSep_toLowerStr_none :
    ∀ l : List Nat, splitSep l = none → splitSep (toLowerStr l) = none := by
  intro l
  induction l with
  | nil => intro _; rfl
  | cons c cs ih =>
    intro hn
    obtain ⟨hp, hn2⟩ := splitSep_cons_none c cs hn
    have hp2 : isPrefOf [58, 47, 47] (toLowerStr (c :: cs)) = false := by
      rw [isPrefOf_sep_toLowerStr]
      exact hp
    have hcons : toLowerStr (c :: cs) = toLowerCh c :: toLowerStr cs := rfl
    rw [hcons] at hp2
    show splitSep (toLowerCh c :: toLowerStr cs) = none
    rw [splitSep, if_neg (by simp [hp2]), ih hn2]

theorem dropWhile_head_false {P : Nat → Bool} :
    ∀ l : List Nat, (l.dropWhile P = []) ∨
      (∃ c t, l.dropWhile P = c :: t ∧ P c = false) := by
  intro l
  induction l with
  | nil => exact Or.inl rfl
  | cons c cs ih =>
    by_cases hc : P c = true
    · rw [List.dropWhile_cons_of_pos hc]
      exact ih
    · rw [List.dropWhile_cons_of_neg hc]
      exact Or.inr ⟨c, cs, rfl, by simpa using hc⟩

theorem takeWhile_all_append {P : Nat → Bool} :
    ∀ (l t : List Nat), (∀ c ∈ l, P c = true) →
      (l ++ t).takeWhile P = l ++ t.takeWhile P := by
  intro l
  induction l with
  | nil => simp
  | cons c cs ih =>
    intro t hall
    rw [List.cons_append, List.takeWhile_cons_of_pos (hall c (by simp))]
    rw [ih t (fun x hx => hall x (by simp [hx]))]
    rfl

theorem dropWhile_all_append {P : Nat → Bool} :
    ∀ (l t : List Nat), (∀ c ∈ l, P c = true) →
      (l ++ t).dropWhile P = t.dropWhile P := by
  intro l
  induction l with
  | nil => simp
  | cons c cs ih =>
    intro t hall
    rw [List.cons_append, List.dropWhile_cons_of_pos (hall c (by simp))]
    exact ih t (fun x hx => hall x (by simp [hx]))

theorem trimLeft_head_false :
    ∀ l : List Nat, (trimLeft l = []) ∨
      (∃ c t, trimLeft l = c :: t ∧ isSpaceCh c = false) :=
  fun l => dropWhile_head_false l

theorem trimSpace_head_nonspace (l : List Nat) :
    ∀ c, (trimSpace l).head? = some c → isSpaceCh c = false := by
  intro c hc
  unfold trimSpace at hc
  rw [List.head?_reverse] at hc
  have hx := List.takeWhile_append_dropWhile (fun c => isSpaceCh c) (trimLeft l).reverse
  have hgl : (trimLeft l).reverse.getLast? = some c := by
    rw [← hx, List.getLast?_append, hc]
    rfl
  rw [List.getLast?_reverse] at hgl
  rcases trimLeft_head_false l with hnil | ⟨e, u, heu, he⟩
  · rw [hnil] at hgl
    cases hgl
  · rw [heu] at hgl
    simp only [List.head?_cons, Option.some.injEq] at hgl
    rw [hgl] at he
    exact he

theorem trimSpace_getLast_nonspace (l : List Nat) :
    ∀ c, (trimSpace l).getLast? = some c → isSpaceCh c = false := by
  intro c hc
  unfold trimSpace at hc
  rw [List.getLast?_reverse] at hc
  rcases dropWhile_head_false ((trimLeft l).reverse) with hnil | ⟨d, t, hdt, hd⟩
  · rw [hnil] at hc
    cases hc
  · rw [hdt] at hc
    simp only [List.head?_cons, Option.some.injEq] at hc
    rw [hc] at hd
    exact hd

theorem trimSpace_eq_self (l : List Nat)
    (hh : ∀ c, l.head? = some c → isSpaceCh c = false)
    (hl : ∀ c, l.getLast? = some c → isSpaceCh c = false) :
    trimSpace l = l := by
  unfold trimSpace
  have h1 : trimLeft l = l := by
    cases l with
    | nil => rfl
    | cons c cs =>
      unfold trimLeft
      rw [List.dropWhile_cons_of_neg (by simp [hh c rfl])]
  rw [h1]
  cases hr : l.reverse with
  | nil =>
    have hle : l = [] := by simpa using congrArg List.reverse hr
    rw [hle]
    rfl
  | cons d t =>
    have hd : isSpaceCh d = false := by
      apply hl d
      rw [← List.head?_reverse, hr]
      rfl
    rw [List.dropWhile_cons_of_neg (by simp [hd]), ← hr, List.reverse_reverse]

theorem containsSeq_sep_middle (a b : List Nat) :
    containsSeq (a ++ [58, 47, 47] ++ b) [58, 47, 47] = true := by
  rw [containsSeq_iff_drop]
  refine ⟨a.length, ?_, ?_⟩
  · simp
  · rw [List.append_assoc, List.drop_left]
    exact isPrefOf_append_self [58, 47, 47] b

theorem urlParse_inv (p scheme host rest : List Nat)
    (h : urlParse p = some (scheme, host, rest)) :
    ∃ after, splitSep p = some (scheme, after) ∧ scheme ≠ [] ∧
      host = after.takeWhile (fun c => !isHostEnd c) ∧
      rest = after.dropWhile (fun c => !isHostEnd c) := by
  unfold urlParse at h
  cases hs : splitSep p with
  | none => rw [hs] at h; cases h
  | some pr =>
    obtain ⟨sch, aft⟩ := pr
    rw [hs] at h
    dsimp only at h
    by_cases hemp : sch = []
    · rw [if_pos hemp] at h; cases h
    · rw [if_neg hemp] at h
      rw [Option.some.injEq, Prod.mk.injEq, Prod.mk.injEq] at h
      obtain ⟨h1, h2, h3⟩ := h
      subst h1
      exact ⟨aft, rfl, hemp, h2.symm, h3.symm⟩

theorem isSpaceCh_of_hostEnd (d : Nat) (hd : isHostEnd d = true) : isSpaceCh d = false := by
  unfold isHostEnd at hd
  unfold isSpaceCh
  simp only [Bool.or_eq_true, beq_iff_eq] at hd
  simp only [Bool.or_eq_false_iff, Bool.and_eq_false_iff, beq_eq_false_iff_ne, ne_eq,
    decide_eq_false_iff_not, not_le]
  rcases hd with h | h | h <;> omega

theorem urlString_getLast_nonspace (p scheme after : List Nat)
    (hdecomp : p = scheme ++ [58, 47, 47] ++ after)
    (hp_last : ∀ c, p.getLast? = some c → isSpaceCh c = false) :
    ∀ c, (toLowerStr scheme ++ [58, 47, 47] ++
        toLowerStr (after.takeWhile (fun c => !isHostEnd c)) ++
        after.dropWhile (fun c => !isHostEnd c)).getLast? = some c →
      isSpaceCh c = false := by
  intro c hc
  have hafter := List.takeWhile_append_dropWhile (fun c => !isHostEnd c) after
  rcases dropWhile_head_false (P := fun c => !isHostEnd c) after with hrestnil | ⟨d, t, hrest, _⟩
  · -- the remainder is empty: after = host
    have haft2 : after.takeWhile (fun c => !isHostEnd c) = after := by
      rw [hrestnil] at hafter
      simpa using hafter
    rw [hrestnil, List.append_nil] at hc
    cases hhost : after with
    | nil =>
      rw [hhost] at hc
      simp only [List.takeWhile_nil, toLowerStr, List.map_nil, List.append_nil] at hc
      rw [List.getLast?_append] at hc
      simp only [List.getLast?_cons_cons, List.getLast?_singleton, Option.or_some,
        Option.some.injEq] at hc
      rw [← hc]
      rfl
    | cons h0 hs =>
      have hostne : after.takeWhile (fun c => !isHostEnd c) ≠ [] := by
        rw [haft2, hhost]
        simp
      have hlne : toLowerStr (after.takeWhile (fun c => !isHostEnd c)) ≠ [] := by
        simpa [toLowerStr] using hostne
      rw [List.getLast?_append, List.getLast?_append] at hc
      cases hgl : (toLowerStr (after.takeWhile (fun c => !isHostEnd c))).getLast? with
      | none =>
        rw [List.getLast?_eq_none_iff] at hgl
        exact absurd hgl hlne
      | some e =>
        rw [hgl] at hc
        simp only [Option.or_some, Option.some.injEq] at hc
        rw [haft2] at hgl
        rw [show toLowerStr after = List.map toLowerCh after from rfl, List.getLast?_map] at hgl
        cases hgl2 : after.getLast? with
        | none => rw [hgl2] at hgl; cases hgl
        | some e0 =>
          rw [hgl2] at hgl
          simp at hgl
          have hpe : p.getLast? = some e0 := by
            rw [hdecomp, List.getLast?_append, List.getLast?_append, hgl2]
            rfl
          have := hp_last e0 hpe
          rw [← hc, ← hgl, isSpaceCh_toLowerCh]
          exact this
  · -- the remainder is nonempty: last of r = last of p
    have hrestne : after.dropWhile (fun c => !isHostEnd c) ≠ [] := by
      rw [hrest]
      simp
    cases hgl : (after.dropWhile (fun c => !isHostEnd c)).getLast? with
    | none =>
      rw [List.getLast?_eq_none_iff] at hgl
      exact absurd hgl hrestne
    | some e =>
      rw [List.getLast?_append, List.getLast?_append, List.getLast?_append, hgl] at hc
      simp only [Option.or_some, Option.some.injEq] at hc
      have hpe : p.getLast? = some e := by
        rw [hdecomp, List.getLast?_append]
        have : after.getLast? = some e := by
          rw [← hafter, List.getLast?_append, hgl]
          rfl
        rw [this]
        rfl
      have := hp_last e hpe
      rw [← hc]
      exact this

theorem normalizeURL_fixed_point (p scheme after : List Nat)
    (hsplit : splitSep p = some (scheme, after))
    (hschne : scheme ≠ [])
    (hp_head : ∀ c, p.head? = some c → isSpaceCh c = false)
    (hp_last : ∀ c, p.getLast? = some c → isSpaceCh c = false)
    (hp_notdd : isPrefOf [47, 47] p = false) :
    normalizeURL (toLowerStr scheme ++ [58, 47, 47] ++
        toLowerStr (after.takeWhile (fun c => !isHostEnd c)) ++
        after.dropWhile (fun c => !isHostEnd c)) =
      some (toLowerStr scheme ++ [58, 47, 47] ++
        toLowerStr (after.takeWhile (fun c => !isHostEnd c)) ++
        after.dropWhile (fun c => !isHostEnd c)) := by
  have hdecomp := splitSep_decomp p scheme after hsplit
  obtain ⟨c0, s0, hsch⟩ : ∃ c0 s0, scheme = c0 :: s0 := by
    cases hx : scheme with
    | nil => exact absurd hx hschne
    | cons a b => exact ⟨a, b, rfl⟩
  have hc0ns : isSpaceCh c0 = false := by
    apply hp_head c0
    rw [hdecomp, hsch]
    rfl
  have hr_head : ∀ c, (toLowerStr scheme ++ [58, 47, 47] ++
      toLowerStr (after.takeWhile (fun c => !isHostEnd c)) ++
      after.dropWhile (fun c => !isHostEnd c)).head? = some c → isSpaceCh c = false := by
    intro c hc
    rw [hsch] at hc
    simp only [toLowerStr, List.map_cons, List.cons_append, List.head?_cons,
      Option.some.injEq] at hc
    rw [← hc, isSpaceCh_toLowerCh]
    exact hc0ns
  have hr_last := urlString_getLast_nonspace p scheme after hdecomp hp_last
  have htrim : trimSpace (toLowerStr scheme ++ [58, 47, 47] ++
      toLowerStr (after.takeWhile (fun c => !isHostEnd c)) ++
      after.dropWhile (fun c => !isHostEnd c)) =
      toLowerStr scheme ++ [58, 47, 47] ++
      toLowerStr (after.takeWhile (fun c => !isHostEnd c)) ++
      after.dropWhile (fun c => !isHostEnd c) :=
    trimSpace_eq_self _ hr_head hr_last
  have hne : ¬ (toLowerStr scheme ++ [58, 47, 47] ++
      toLowerStr (after.takeWhile (fun c => !isHostEnd c)) ++
      after.dropWhile (fun c => !isHostEnd c) = []) := by
    rw [hsch]
    simp [toLowerStr]
  have hcontains : containsSeq (toLowerStr scheme ++ [58, 47, 47] ++
      toLowerStr (after.takeWhile (fun c => !isHostEnd c)) ++
      after.dropWhile (fun c => !isHostEnd c)) [58, 47, 47] = true := by
    have := containsSeq_sep_middle (toLowerStr scheme)
      (toLowerStr (after.takeWhile (fun c => !isHostEnd c)) ++
        after.dropWhile (fun c => !isHostEnd c))
    simpa [List.append_assoc] using this
  have hnotdd : isPrefOf [47, 47] (toLowerStr scheme ++ [58, 47, 47] ++
      toLowerStr (after.takeWhile (fun c => !isHostEnd c)) ++
      after.dropWhile (fun c => !isHostEnd c)) = false := by
    cases hs0 : s0 with
    | nil =>
      rw [hsch, hs0]
      simp [toLowerStr, isPrefOf]
    | cons c1 s1 =>
      have hpp : isPrefOf [47, 47] (c0 :: c1 :: (s1 ++ [58, 47, 47] ++ after)) = false := by
        have : p = c0 :: c1 :: (s1 ++ [58, 47, 47] ++ after) := by
          rw [hdecomp, hsch, hs0]
          simp
        rw [← this]
        exact hp_notdd
      rw [hsch, hs0]
      simp only [toLowerStr, List.map_cons, List.cons_append, isPrefOf,
        toLowerCh_beq_low 47 (by omega)] at hpp ⊢
      simpa using hpp
  have hschnone : splitSep scheme = none := splitSep_before_none p scheme after hsplit
  have hlsnone : splitSep (toLowerStr scheme) = none := splitSep_toLowerStr_none scheme hschnone
  have hsplit2 : splitSep (toLowerStr scheme ++ [58, 47, 47] ++
      toLowerStr (after.takeWhile (fun c => !isHostEnd c)) ++
      after.dropWhile (fun c => !isHostEnd c)) =
      some (toLowerStr scheme,
        toLowerStr (after.takeWhile (fun c => !isHostEnd c)) ++
        after.dropWhile (fun c => !isHostEnd c)) := by
    have := splitSep_of_prefix_none (toLowerStr scheme)
      (toLowerStr (after.takeWhile (fun c => !isHostEnd c)) ++
        after.dropWhile (fun c => !isHostEnd c)) hlsnone
    simpa [List.append_assoc] using this
  have hlsne : toLowerStr scheme ≠ [] := by
    rw [hsch]
    simp [toLowerStr]
  have hhostall : ∀ c ∈ toLowerStr (after.takeWhile (fun c => !isHostEnd c)),
      (!isHostEnd c) = true := by
    intro c hc
    simp only [toLowerStr, List.mem_map] at hc
    obtain ⟨c', hc', hcc⟩ := hc
    have := List.mem_takeWhile_imp hc'
    rw [← hcc]
    simpa [isHostEnd_toLowerCh] using this
  have hrestdrop :
      (after.dropWhile (fun c => !isHostEnd c)).takeWhile (fun c => !isHostEnd c) = [] ∧
      (after.dropWhile (fun c => !isHostEnd c)).dropWhile (fun c => !isHostEnd c) =
        after.dropWhile (fun c => !isHostEnd c) := by
    rcases dropWhile_head_false (P := fun c => !isHostEnd c) after with hnil | ⟨d, t, hdt, hd⟩
    · rw [hnil]
      exact ⟨rfl, rfl⟩
    · rw [hdt]
      constructor
      · rw [List.takeWhile_cons_of_neg (by simp [hd])]
      · rw [List.dropWhile_cons_of_neg (by simp [hd])]
  have htake : (toLowerStr (after.takeWhile (fun c => !isHostEnd c)) ++
      after.dropWhile (fun c => !isHostEnd c)).takeWhile (fun c => !isHostEnd c) =
      toLowerStr (after.takeWhile (fun c => !isHostEnd c)) := by
    rw [takeWhile_all_append _ _ hhostall, hrestdrop.1, List.append_nil]
  have hdrop : (toLowerStr (after.takeWhile (fun c => !isHostEnd c)) ++
      after.dropWhile (fun c => !isHostEnd c)).dropWhile (fun c => !isHostEnd c) =
      after.dropWhile (fun c => !isHostEnd c) := by
    rw [dropWhile_all_append _ _ hhostall, hrestdrop.2]
  -- now evaluate normalizeURL on the normalized string
  unfold normalizeURL
  dsimp only
  rw [htrim]
  rw [if_neg hne]
  rw [if_neg (by
    intro hcontr
    exact hcontr.1 hcontains)]
  rw [if_neg (by rw [hnotdd]; simp)]
  unfold urlParse
  rw [hsplit2]
  dsimp only
  rw [if_neg hlsne]
  rw [htake, hdrop]
  dsimp only
  rw [if_neg hlsne]
  unfold urlString
  rw [toLowerStr_idem, toLowerStr_idem]

/-- C9: URL normalization is idempotent — for every input `u` on which
`normalizeURL` succeeds with result `r`, running `normalizeURL` on `r`
succeeds and returns `r` itself. -/
theorem claim_C9_normalize_idempotent (u r : List Nat)
    (h : normalizeURL u = some r) : normalizeURL r = some r := by
  unfold normalizeURL at h
  dsimp only at h
  by_cases hemp : trimSpace u = []
  · rw [if_pos hemp] at h; cases h
  rw [if_neg hemp] at h
  by_cases hguard : ¬ (containsSeq (trimSpace u) [58, 47, 47] = true) ∧
      ¬ (isPrefOf [47, 47] (trimSpace u) = true)
  · rw [if_pos hguard] at h; cases h
  rw [if_neg hguard] at h
  by_cases hdd : isPrefOf [47, 47] (trimSpace u) = true
  · -- scheme-relative input: promoted to https
    rw [if_pos hdd] at h
    cases hparse : urlParse ([104, 116, 116, 112, 115, 58] ++ trimSpace u) with
    | none => rw [hparse] at h; cases h
    | some trip =>
      obtain ⟨scheme, host, rest⟩ := trip
      rw [hparse] at h
      dsimp only at h
      obtain ⟨after, hsplit, hschne, hhost, hrest⟩ :=
        urlParse_inv ([104, 116, 116, 112, 115, 58] ++ trimSpace u) scheme host rest hparse
      rw [if_neg hschne, Option.some.injEq] at h
      have hp_head : ∀ c, ([104, 116, 116, 112, 115, 58] ++ trimSpace u).head? = some c →
          isSpaceCh c = false := by
        intro c hc
        simp only [List.cons_append, List.head?_cons, Option.some.injEq] at hc
        rw [← hc]
        rfl
      have hp_last : ∀ c, ([104, 116, 116, 112, 115, 58] ++ trimSpace u).getLast? = some c →
          isSpaceCh c = false := by
        intro c hc
        rw [List.getLast?_append] at hc
        cases hgl : (trimSpace u).getLast? with
        | none =>
          rw [List.getLast?_eq_none_iff] at hgl
          exact absurd hgl hemp
        | some e =>
          rw [hgl] at hc
          simp only [Option.or_some, Option.some.injEq] at hc
          rw [← hc]
          exact trimSpace_getLast_nonspace u e hgl
      have hp_notdd : isPrefOf [47, 47] ([104, 116, 116, 112, 115, 58] ++ trimSpace u) = false := by
        simp [isPrefOf]
      have hfix := normalizeURL_fixed_point ([104, 116, 116, 112, 115, 58] ++ trimSpace u)
        scheme after hsplit hschne hp_head hp_last hp_notdd
      rw [← h, hhost, hrest]
      exact hfix
  · -- absolute input used as-is
    rw [if_neg hdd] at h
    cases hparse : urlParse (trimSpace u) with
    | none => rw [hparse] at h; cases h
    | some trip =>
      obtain ⟨scheme, host, rest⟩ := trip
      rw [hparse] at h
      dsimp only at h
      obtain ⟨after, hsplit, hschne, hhost, hrest⟩ :=
        urlParse_inv (trimSpace u) scheme host rest hparse
      rw [if_neg hschne, Option.some.injEq] at h
      have hp_notdd : isPrefOf [47, 47] (trimSpace u) = false := by
        cases hb : isPrefOf [47, 47] (trimSpace u) with
        | false => rfl
        | true => exact absurd hb hdd
      have hfix := normalizeURL_fixed_point (trimSpace u) scheme after hsplit hschne
        (trimSpace_head_nonspace u) (trimSpace_getLast_nonspace u) hp_notdd
      rw [← h, hhost, hrest]
      exact hfix

/-- Witness for C9: `"Http://Ex.com/A?Q"` normalizes to `"http://ex.com/A?Q"`,
and normalizing that result returns it unchanged. -/
theorem claim_C9_witness :
    normalizeURL [104, 116, 116, 112, 58, 47, 47, 101, 120, 46, 99, 111, 109, 47, 65, 63, 81] =
      some [104, 116, 116, 112, 58, 47, 47, 101, 120, 46, 99, 111, 109, 47, 65, 63, 81] :=
  claim_C9_normalize_idempotent
    [72, 116, 116, 112, 58, 47, 47, 69, 120, 46, 99, 111, 109, 47, 65, 63, 81]
    [104, 116, 116, 112, 58, 47, 47, 101, 120, 46, 99, 111, 109, 47, 65, 63, 81]
    (by decide)

/-! ### Dedup signatures: claim C8 -/

theorem wordBytes_mem_lt (w : Nat) : ∀ x ∈ wordBytes w, x < 256 := by
  intro x hx
  simp only [wordBytes, List.mem_cons, List.not_mem_nil, or_false] at hx
  rcases hx with h | h | h | h <;> subst h <;> exact Nat.mod_lt _ (by norm_num)

theorem sha256Sum_mem_lt (msg : List Nat) : ∀ x ∈ sha256Sum msg, x < 256 := by
  intro x hx
  simp only [sha256Sum, List.mem_append] at hx
  rcases hx with ((((((h | h) | h) | h) | h) | h) | h) | h <;> exact wordBytes_mem_lt _ x h

theorem sha256Sum_length (msg : List Nat) : (sha256Sum msg).length = 32 := by
  simp [sha256Sum, wordBytes]

theorem bitString_nonspace (f : Fin 257 → Fin 2) :
    ∀ c ∈ bitString f, isSpaceCh c = false := by
  intro c hc
  rw [bitString, List.mem_ofFn] at hc
  obtain ⟨i, hi⟩ := hc
  dsimp only at hi
  have h2 : (f i).val < 2 := (f i).isLt
  have : c = 97 ∨ c = 98 := by omega
  rcases this with rfl | rfl <;> rfl

theorem bitString_trim (f : Fin 257 → Fin 2) : trimSpace (bitString f) = bitString f := by
  apply trimSpace_eq_self
  · intro c hc
    exact bitString_nonspace f c (List.mem_of_mem_head? (by simp [hc]))
  · intro c hc
    rw [← List.head?_reverse] at hc
    have hm : c ∈ (bitString f).reverse := List.mem_of_mem_head? (by simp [hc])
    exact bitString_nonspace f c (by simpa using hm)

theorem bitString_injective {f g : Fin 257 → Fin 2} (h : bitString f = bitString g) :
    f = g := by
  rw [bitString, bitString, List.ofFn_inj] at h
  funext i
  have hi := congrFun h i
  have hv : (f i).val = (g i).val := by omega
  exact Fin.val_injective hv

/-- C8, counterexample: the spec's iff law for `GenerateSignature` fails in
the forward direction — there are two texts whose trimmed contents differ
yet whose signatures coincide, because the `2 ^ 257` pairwise distinct
trimmed texts `bitString f` map into the at most `256 ^ 32 = 2 ^ 256`
possible SHA-256 digests. -/
theorem claim_C8_counterexample :
    ¬ (∀ x y : List Nat,
        GenerateSignature x = GenerateSignature y ↔ trimSpace x = trimSpace y) := by
  intro hlaw
  have hcard : Fintype.card (Fin 32 → Fin 256) < Fintype.card (Fin 257 → Fin 2) := by
    rw [Fintype.card_fun, Fintype.card_fun, Fintype.card_fin, Fintype.card_fin,
      Fintype.card_fin, Fintype.card_fin]
    have h0 : (256 : ℕ) = 2 ^ 8 := by norm_num
    have h1 : (256 : ℕ) ^ 32 = 2 ^ 256 :=
      calc (256 : ℕ) ^ 32 = (2 ^ 8) ^ 32 := by rw [h0]
      _ = 2 ^ (8 * 32) := by rw [← pow_mul]
      _ = 2 ^ 256 := by norm_num
    rw [h1]
    exact Nat.pow_lt_pow_right (by norm_num) (by norm_num)
  obtain ⟨f, f', hne, heq⟩ := Fintype.exists_ne_map_eq_of_card_lt
    (fun (f : Fin 257 → Fin 2) (i : Fin 32) =>
      (⟨(sha256Sum (utf8Bytes (bitString f))).getD i.val 0 % 256,
        Nat.mod_lt _ (by norm_num)⟩ : Fin 256))
    hcard
  have hsha : sha256Sum (utf8Bytes (bitString f)) = sha256Sum (utf8Bytes (bitString f')) := by
    apply List.ext_getElem
    · rw [sha256Sum_length, sha256Sum_length]
    · intro i h1 h2
      have hi32 : i < 32 := by rw [sha256Sum_length] at h1; exact h1
      have hv := congrFun heq ⟨i, hi32⟩
      simp only [Fin.mk.injEq] at hv
      rw [List.getD_eq_getElem _ _ h1, List.getD_eq_getElem _ _ h2] at hv
      rw [Nat.mod_eq_of_lt (sha256Sum_mem_lt _ _ (List.getElem_mem h1)),
        Nat.mod_eq_of_lt (sha256Sum_mem_lt _ _ (List.getElem_mem h2))] at hv
      exact hv
  have hsig : GenerateSignature (bitString f) = GenerateSignature (bitString f') := by
    unfold GenerateSignature
    rw [bitString_trim, bitString_trim, hsha]
  have htr := (hlaw _ _).mp hsig
  rw [bitString_trim, bitString_trim] at htr
  exact hne (bitString_injective htr)

/-- C8 (amended): `GenerateSignature` is a pure function of the trimmed
text — equal trimmed inputs give equal signatures.  This is the direction
of the spec's iff that holds; the converse fails (see the counterexample). -/
theorem claim_C8_signature_of_trim (x y : List Nat) (h : trimSpace x = trimSpace y) :
    GenerateSignature x = GenerateSignature y := by
  unfold GenerateSignature
  rw [h]

/-- Witness for C8: `" a"` and `"a"` trim to the same text and therefore
share a signature. -/
theorem claim_C8_witness :
    trimSpace [32, 97] = trimSpace [97] ∧
      GenerateSignature [32, 97] = GenerateSignature [97] :=
  ⟨by decide, claim_C8_signature_of_trim [32, 97] [97] (by decide)⟩

end Indexer
